import Mathlib

/-!
# Verification of the shuttle-route planning core

Shallow embedding of the routing-engine repository (src/services.py,
src/models.py, src/routing.py and the modular variants under src/services/)
together with proofs settling the frozen claims about it.

Conventions of the embedding:
* Python floats are modelled as rationals (`ℚ`); the great-circle distance
  `haversine` is a fixed pure function of two coordinates, so the code is
  embedded parametrically over an arbitrary distance function `hav`.
* The k-means clusterer (`utils.KMeansClusterer`, a wrapper over sklearn) is
  external to the repository; it is modelled as a parameter returning a list
  of centers and a list of labels.  Where the code relies on sklearn's
  contract (labels in range, one label per sample, one center per cluster)
  the embedding guards on it and returns `none` outside of it.
* Code that raises a Python exception on some input (e.g. `max()` of an empty
  sequence, division by zero) is embedded with `Option`, returning `none`
  exactly on those inputs.
* The external OSRM routing engine is a parameter; its calls can fail
  (`Except Unit`), mirroring request exceptions.
-/

/-- A geographic coordinate `(lat, lon)`. -/
abbrev Coord : Type := ℚ × ℚ

/-- `utils.haversine` has this type; the embedding is parametric in it. -/
abbrev DistFn : Type := Coord → Coord → ℚ

/-- Employee (src/models.py `Employee`), restricted to the fields the
clustering passes read: identity, location and the exclusion flag.  The
`cluster_id` back-pointer is bookkeeping derived from cluster membership and
is omitted here; membership lists are the ground truth. -/
structure Emp where
  eid : Nat
  lat : ℚ
  lon : ℚ
  excluded : Bool
deriving DecidableEq

/-- The location tuple `employee.get_location()`. -/
def Emp.loc (e : Emp) : Coord := (e.lat, e.lon)

/-- Route (src/models.py:155-218), restricted to the fields
`optimize_cluster_route` touches. -/
structure MRoute where
  stops : List Coord := []
  coordinates : List Coord := []
  distance_km : ℚ := 0
  duration_min : ℚ := 0
  optimized : Bool := false
deriving DecidableEq

/-- Cluster (src/models.py `Cluster`), with the fields used by capacity
enforcement and route building. -/
structure Cluster where
  id : Nat
  center : Coord
  employees : List Emp
  zone_id : Option Nat := none
  parent_cluster_id : Option Nat := none
  stops : List Coord := []
  route : Option MRoute := none
deriving DecidableEq

/-- `Cluster.get_active_employees`: the non-excluded members. -/
def Cluster.active (c : Cluster) : List Emp :=
  c.employees.filter (fun e => !e.excluded)

/-- `Cluster.get_employee_count(include_excluded=False)`. -/
def Cluster.activeCount (c : Cluster) : Nat := c.active.length

/-- `Cluster.get_employee_locations(False)`. -/
def Cluster.activeLocs (c : Cluster) : List Coord := c.active.map Emp.loc

/-- Result of one `KMeansClusterer.fit`: `cluster_centers_` and `labels_`. -/
structure KMRes where
  centers : List Coord
  labels : List Nat

/-- The external k-means clusterer, as a function of the sample coordinates
and the requested number of clusters. -/
abbrev KMeansFn : Type := List Coord → Nat → KMRes

/-- `math.ceil(a / b)` for positive `b` on naturals. -/
def ceilDiv (a b : Nat) : Nat := (a + b - 1) / b

/-- Replace the element at index `i` (no-op when out of range). -/
def updAt (l : List Cluster) (i : Nat) (f : Cluster → Cluster) : List Cluster :=
  match l, i with
  | [], _ => []
  | c :: rest, 0 => f c :: rest
  | c :: rest, Nat.succ j => c :: updAt rest j f

/-- Append an employee to the cluster at index `i` (`subs[idx].add_employee(emp)`). -/
def addEmpAt (subs : List Cluster) (i : Nat) (e : Emp) : List Cluster :=
  updAt subs i (fun c => { c with employees := c.employees ++ [e] })

/-- Index of the first minimum of `f` over `l` (Python `min(l, key=f)` keeps
the earliest minimizer; comparisons are strict). -/
def minIdxBy (f : Cluster → ℚ) : List Cluster → Option Nat
  | [] => none
  | c :: rest =>
    match minIdxBy f rest with
    | none => some 0
    | some j =>
      -- Python's min scans left to right keeping the current value on ties;
      -- equivalently the first minimizer wins.
      if f (rest.getD j c) < f c then some (j + 1) else some 0

/-- `for emp, idx in zip(active_emps, km.labels_): subs[idx].add_employee(emp)` -/
def assignByLabels (pairs : List (Emp × Nat)) (subs : List Cluster) : List Cluster :=
  pairs.foldl (fun acc p => addEmpAt acc p.2 p.1) subs

/-- The excluded-member loop of `enforce_capacity_constraints`:
each excluded employee of the split cluster goes to the sub-cluster whose
center is nearest (`min(subs, key=lambda s: e.distance_to(*s.center))`). -/
def addExcluded (hav : DistFn) (exs : List Emp) (subs : List Cluster) : List Cluster :=
  exs.foldl (fun acc e =>
    match minIdxBy (fun s => hav e.loc s.center) acc with
    | some i => addEmpAt acc i e
    | none => acc) subs

/-- Split one over-capacity cluster (the `else` branch of
`ClusteringService.enforce_capacity_constraints`, src/services.py:122-144).
Returns `none` when the k-means result violates sklearn's contract. -/
def splitOne (hav : DistFn) (km : KMeansFn) (nextId capacity : Nat) (c : Cluster) :
    Option (List Cluster) :=
  let actives := c.active
  let n := ceilDiv actives.length capacity
  let kres := km (actives.map Emp.loc) n
  if kres.centers.length = n ∧ kres.labels.length = actives.length ∧
      ∀ l ∈ kres.labels, l < n then
    let subs0 := (List.range n).map (fun i =>
      { id := nextId + i, center := kres.centers.getD i (0, 0), employees := [],
        zone_id := c.zone_id, parent_cluster_id := some c.id : Cluster })
    let subs1 := assignByLabels (actives.zip kres.labels) subs0
    some (addExcluded hav (c.employees.filter (fun e => e.excluded)) subs1)
  else none

/-- The per-cluster loop of `enforce_capacity_constraints`, threading the
fresh-id counter.  `capacity = 0` in the split branch mirrors Python's
`ZeroDivisionError` in `math.ceil(active / capacity)`. -/
def enforceGo (hav : DistFn) (km : KMeansFn) (capacity : Nat) :
    List Cluster → Nat → Option (List Cluster)
  | [], _ => some []
  | c :: rest, nid =>
    if c.activeCount ≤ capacity then
      (enforceGo hav km capacity rest nid).map (c :: ·)
    else if capacity = 0 then none
    else
      match splitOne hav km nid capacity c with
      | none => none
      | some subs =>
        (enforceGo hav km capacity rest (nid + ceilDiv c.activeCount capacity)).map
          (subs ++ ·)

/-- `ClusteringService.enforce_capacity_constraints` (src/services.py:114-145).
`none` on the empty list models the `ValueError` of
`max(c.id for c in clusters)` on an empty sequence. -/
def enforce_capacity_constraints (hav : DistFn) (km : KMeansFn)
    (clusters : List Cluster) (capacity : Nat) : Option (List Cluster) :=
  match (clusters.map Cluster.id).max? with
  | none => none
  | some m => enforceGo hav km capacity clusters (m + 1)

/-!
## Routing client and cache (src/routing.py)
-/

/-- A successful routing-engine response (`coordinates`, `distance_km`,
`duration_min`), as assembled in `OSRMRouter.get_route`. -/
structure RouteData where
  coordinates : List Coord
  distance_km : ℚ
  duration_min : ℚ
deriving DecidableEq

/-- `f"{q:.6f}"` rounds to six decimal places; the embedding keeps the scaled
integer.  `APICache._generate_key` renders each coordinate this way before
hashing, so two inputs collide in the cache iff their rendered strings agree. -/
def round6 (q : ℚ) : ℤ :=
  -- ⌊q·10⁶ + 1/2⌋, written on the numerator and denominator directly
  Int.fdiv (2 * (q.num * 1000000) + q.den) (2 * q.den)

/-- Cache key of `APICache._generate_key(points, departure_time)`
(src/routing.py:41-44).  The md5 digest is a deterministic function of the
rendered string, which is determined by exactly these components: the rounded
coordinates and the time bucket.  Note that the routing profile is NOT part
of the key. -/
def generate_key (points : List Coord) (departure_time : Option String) :
    List (ℤ × ℤ) × String :=
  (points.map (fun p => (round6 p.1, round6 p.2)), departure_time.getD "no-time")

/-- Cache key of `APICache._generate_matrix_key(origins, destinations, profile)`
(src/routing.py:55-58); here the profile IS part of the key. -/
def generate_matrix_key (origins destinations : List Coord) (profile : String) :
    String × List (ℤ × ℤ) × List (ℤ × ℤ) :=
  (profile,
   origins.map (fun p => (round6 p.1, round6 p.2)),
   destinations.map (fun p => (round6 p.1, round6 p.2)))

/-- The in-memory route cache: key-to-result map, modelled as an association
list where a `set` prepends (first match wins on lookup, like a dict write). -/
abbrev CacheMap : Type := List ((List (ℤ × ℤ) × String) × RouteData)

/-- `APICache.get` for route queries. -/
def cacheGet (cache : CacheMap) (points : List Coord) (dep : Option String) :
    Option RouteData :=
  (cache.find? (fun kv => kv.1 = generate_key points dep)).map (·.2)

/-- `APICache.set` for route queries. -/
def cacheSet (cache : CacheMap) (points : List Coord) (dep : Option String)
    (data : RouteData) : CacheMap :=
  (generate_key points dep, data) :: cache

/-- The external OSRM HTTP endpoint: list of points and a profile in, a route
or a request error out. -/
abbrev EngineFn : Type := List Coord → String → Except Unit RouteData

/-- Outcome of one `OSRMRouter.get_route` call: the returned (or raised)
result, the cache afterwards, and whether a network request was issued. -/
structure GetRouteOut where
  result : Except Unit RouteData
  cache : CacheMap
  networkCalled : Bool

/-- `OSRMRouter.get_route(points, profile)` (src/routing.py:79-108): cache
lookup first (always with `departure_time=None`), then the network call;
successful results are written through, errors are re-raised and not cached. -/
def get_route (engine : EngineFn) (cache : CacheMap) (points : List Coord)
    (profile : String) : GetRouteOut :=
  match cacheGet cache points none with
  | some data => ⟨.ok data, cache, false⟩
  | none =>
    match engine points profile with
    | .ok data => ⟨.ok data, cacheSet cache points none data, true⟩
    | .error e => ⟨.error e, cache, true⟩

/-!
## Route model and route building (src/models.py `Route`,
src/services.py `RoutingService`)
-/

/-- Sum of `haversine` over consecutive stop pairs (meters). -/
def chainSum (hav : DistFn) : List Coord → ℚ
  | a :: b :: rest => hav a b + chainSum hav (b :: rest)
  | _ => 0

/-- `Route.calculate_stats_from_stops` (src/models.py:206-212): the
straight-line fallback, distance in km at an assumed 40 km/h. -/
def calculate_stats_from_stops (hav : DistFn) (r : MRoute) : MRoute :=
  if r.stops.length < 2 then { r with distance_km := 0, duration_min := 0 }
  else
    let total := chainSum hav r.stops
    { r with distance_km := total / 1000, duration_min := total / 1000 / 40 * 60 }

/-- The stop list a route is requested for:
`cluster.stops if use_stops and cluster.has_stops() else
cluster.get_employee_locations(False)`. -/
def requestedStops (c : Cluster) (use_stops : Bool) : List Coord :=
  if use_stops ∧ c.stops ≠ [] then c.stops else c.activeLocs

/-- `RoutingService.optimize_cluster_route` (src/services.py:164-183).
Returns the function's return value, the cluster afterwards (`assign_route`
sets `cluster.route`), and the cache afterwards. -/
def optimize_cluster_route (hav : DistFn) (engine : EngineFn) (cache : CacheMap)
    (c : Cluster) (use_stops : Bool) :
    Option MRoute × Cluster × CacheMap :=
  let stops := requestedStops c use_stops
  if stops = [] then (none, c, cache)
  else
    let r0 : MRoute := { stops := stops }
    let g := get_route engine cache stops "driving"
    let r : MRoute :=
      match g.result with
      | .ok data =>
        { r0 with coordinates := data.coordinates, distance_km := data.distance_km,
                  duration_min := data.duration_min }
      | .error _ => calculate_stats_from_stops hav r0
    (some r, { c with route := some r }, g.cache)

/-!
## Employee-to-stop matching (src/models.py `Route.match_employees_to_route`,
lines 332-362: the successful-distance-matrix branch)
-/

/-- Employee fields touched by the matcher and the reassigner. -/
structure MEmp where
  eid : Nat
  loc : Coord
  excluded : Bool
  pickup_point : Option Coord := none
  walking_distance : Option ℚ := none
  zone_id : Option Nat := none
deriving DecidableEq

/-- The row scan of `match_employees_to_route`: running minimum over the
row entries, skipping `None`, strict `<` so the first minimizer wins
(`min_dist_meters = inf; best_stop_idx = -1; ...`). -/
def rowBestAux : List (Option ℚ) → Nat → Option (Nat × ℚ) → Option (Nat × ℚ)
  | [], _, acc => acc
  | d :: rest, i, acc =>
    let acc' : Option (Nat × ℚ) :=
      match d, acc with
      | some v, some b => if v < b.2 then some (i, v) else acc
      | some v, none => some (i, v)
      | none, _ => acc
    rowBestAux rest (i + 1) acc'

/-- Index and value of the first minimum of a matrix row (`None` skipped);
`none` when every entry is `None`. -/
def rowBest (row : List (Option ℚ)) : Option (Nat × ℚ) := rowBestAux row 0 none

/-- The assignment loop of `match_employees_to_route` after a successful
distance-matrix query: the i-th active employee reads matrix row i and is
assigned the first-minimal candidate (`employee.set_pickup_point(best_stop...,
walking_distance=min_dist_meters)`); employees whose row is all `None`, and
excluded employees, are left untouched. -/
def matchFromMatrixGo (matrix : List (List (Option ℚ))) (cands : List Coord) :
    List MEmp → Nat → List MEmp
  | [], _ => []
  | e :: rest, i =>
    if e.excluded then e :: matchFromMatrixGo matrix cands rest i
    else
      let e' : MEmp :=
        match rowBest (matrix.getD i []) with
        | some b =>
          { e with pickup_point := some (cands.getD b.1 (0, 0)),
                   walking_distance := some b.2 }
        | none => e
      e' :: matchFromMatrixGo matrix cands rest (i + 1)

/-- `Route.match_employees_to_route`, given the successful matrix result and
the filtered candidate list (`valid_route_stops`). -/
def match_employees_to_route (matrix : List (List (Option ℚ)))
    (cands : List Coord) (employees : List MEmp) : List MEmp :=
  matchFromMatrixGo matrix cands employees 0

/-!
## Zone assignment (src/services.py `ZoneService.assign_employees_to_zones`,
lines 798-820)
-/

/-- A zone's geometry enters only through shapely's `contains` and
`boundary.distance`; both are parameters indexed by the zone's position in
`self._zones`. -/
structure ZoneGeo where
  contains : Nat → Coord → Bool
  boundaryDist : Nat → Coord → ℚ

/-- The inner loop: first zone in list order containing the point. -/
def firstContainingZone (zg : ZoneGeo) (n : Nat) (p : Coord) : Option Nat :=
  (List.range n).find? (fun i => zg.contains i p)

/-- Index of the first minimum of `f` over `List.range n` (Python
`min(range(n), key=f)`); `none` for `n = 0` (`ValueError`). -/
def minIdxRange (f : Nat → ℚ) (n : Nat) : Option Nat :=
  (List.range n).foldl (fun acc i =>
    match acc with
    | none => some i
    | some j => if f i < f j then some i else some j) none

/-- Zone chosen for one employee: first containing zone, else the zone with
the nearest boundary; `none` models the `ValueError` of `min` over an empty
range when there are no zones at all. -/
def zoneOf (zg : ZoneGeo) (n : Nat) (p : Coord) : Option Nat :=
  match firstContainingZone zg n p with
  | some i => some i
  | none => minIdxRange (fun i => zg.boundaryDist i p) n

/-- `ZoneService.assign_employees_to_zones`: buckets indexed `0..n-1` in
order, each employee appended (with `zone_id` set) to its `zoneOf` bucket,
empty buckets dropped from the returned dict.  `none` models the uncaught
`ValueError` (no zones but at least one employee). -/
def assign_employees_to_zones (zg : ZoneGeo) (n : Nat) (employees : List MEmp) :
    Option (List (Nat × List MEmp)) :=
  if n = 0 ∧ employees ≠ [] then none
  else
    some (((List.range n).map (fun i =>
      (i, employees.filterMap (fun e =>
        if zoneOf zg n e.loc = some i then some { e with zone_id := some i }
        else none)))).filter (fun b => b.2 ≠ []))

/-!
## Cross-cluster reassignment
(src/services.py `ServicePlanner.reassign_employees_to_closer_routes`,
lines 995-1106)

Employees are shared mutable objects; the pass is embedded as a state whose
`emp` map carries each employee's fields and whose clusters carry member-id
lists.  The outer loop `for cluster in self.clusters` is embedded as a fold
over the list of cluster ids so that the visitation order can be varied.
-/

/-- Employee state during the reassignment pass (`cluster_id`, pickup fields). -/
structure REmp where
  loc : Coord
  excluded : Bool
  cluster_id : Nat := 0
  pickup_point : Option Coord := none
  walking_distance : Option ℚ := none
deriving DecidableEq

/-- One cluster as the reassigner sees it: its id, its member employee ids in
list order, and its route's stop list (empty when it has no route, in which
case it contributes nothing to the snapshot). -/
structure RCluster where
  id : Nat
  members : List Nat
  routeStops : List Coord
deriving DecidableEq

/-- Pipeline state for the pass. -/
structure PState where
  emp : Nat → REmp
  clusters : List RCluster

/-- The frozen stop snapshot `all_route_stops`: every cluster's route stops
paired with the owning cluster id, in cluster-list order. -/
def snapshotOf (cs : List RCluster) : List (Coord × Nat) :=
  cs.flatMap (fun c => c.routeStops.map (fun s => (s, c.id)))

/-- The inner stop scan: running strict minimum starting from the current
walking distance (`best_distance = current_walk_distance; if dist <
best_distance: ...`).  Returns the final best distance and, when some stop
improved on the start, the first such best stop with its cluster id. -/
def bestStop (hav : DistFn) (loc : Coord) :
    List (Coord × Nat) → ℚ → ℚ × Option (Coord × Nat)
  | [], d => (d, none)
  | s :: rest, d =>
    let dist := hav loc s.1
    if dist < d then
      match bestStop hav loc rest dist with
      | (bd, none) => (bd, some s)
      | (bd, some b) => (bd, some b)
    else bestStop hav loc rest d

/-- `current_walk_distance`: the recorded walking distance, recomputed from
the pickup point when unset. -/
def currentWalk (hav : DistFn) (e : REmp) (p : Coord) : ℚ :=
  match e.walking_distance with
  | some w => w
  | none => hav e.loc p

/-- The per-employee decision of the scan phase: `none` when no move is
scheduled, otherwise the destination cluster id, new stop and new distance.
`scanCid` is the id of the cluster currently being scanned. -/
def scheduleMove (hav : DistFn) (snap : List (Coord × Nat)) (maxWalk : ℚ)
    (scanCid : Nat) (e : REmp) : Option (Nat × Coord × ℚ) :=
  match e.pickup_point with
  | none => none
  | some p =>
    let d := currentWalk hav e p
    if d ≤ maxWalk then none
    else
      match bestStop hav e.loc snap d with
      | (bd, some b) =>
        if b.2 ≠ scanCid ∧ (bd ≤ maxWalk ∨ bd < d * (7 / 10)) then
          some (b.2, b.1, bd)
        else none
      | (_, none) => none

/-- Applying one scheduled move: remove the employee from the scanned
cluster's member list, append it to the destination's, and update its
`cluster_id`, pickup point and walking distance. -/
def applyMove (scanCid : Nat) (st : PState) (m : Nat × Nat × Coord × ℚ) : PState :=
  { emp := fun x =>
      if x = m.1 then
        { st.emp x with cluster_id := m.2.1, pickup_point := some m.2.2.1,
                        walking_distance := some m.2.2.2 }
      else st.emp x,
    clusters := st.clusters.map (fun c =>
      if c.id = scanCid then { c with members := c.members.erase m.1 }
      else if c.id = m.2.1 then { c with members := c.members ++ [m.1] }
      else c) }

/-- Active members of a cluster at scan time (`cluster.get_active_employees()`). -/
def activeMembers (st : PState) (c : RCluster) : List Nat :=
  c.members.filter (fun eid => !(st.emp eid).excluded)

/-- Scanning one cluster: schedule over the active members as they are at
scan start, then apply all of this cluster's moves (`employees_to_remove`)
before the next cluster is visited.  Also returns the examined member list
(the employees iterated by `for employee in cluster.get_active_employees()`). -/
def scanCluster (hav : DistFn) (snap : List (Coord × Nat)) (maxWalk : ℚ)
    (st : PState) (cid : Nat) : PState × List Nat :=
  match st.clusters.find? (fun c => c.id = cid) with
  | none => (st, [])
  | some c =>
    let exam := activeMembers st c
    let moves := exam.filterMap (fun eid =>
      (scheduleMove hav snap maxWalk cid (st.emp eid)).map (fun r => (eid, r)))
    (moves.foldl (applyMove cid) st, exam)

/-- The whole pass over a given visitation order of the clusters, with the
examined-members trace.  The snapshot is taken once, up front, from the
cluster list; an empty snapshot returns immediately
(`if not all_route_stops: return`). -/
def reassignTrace (hav : DistFn) (maxWalk : ℚ) (st : PState)
    (order : List Nat) : PState × List (Nat × List Nat) :=
  let snap := snapshotOf st.clusters
  if snap = [] then (st, [])
  else
    order.foldl (fun acc cid =>
      let r := scanCluster hav snap maxWalk acc.1 cid
      (r.1, acc.2 ++ [(cid, r.2)])) (st, [])

/-- `reassign_employees_to_closer_routes`, final state only.  The source
visits `order = st.clusters.map (·.id)`; the order is a parameter so that
visitation-order independence can be stated. -/
def reassign_employees_to_closer_routes (hav : DistFn) (maxWalk : ℚ)
    (st : PState) (order : List Nat) : PState :=
  (reassignTrace hav maxWalk st order).1

/-- The initial cluster of an employee: the first cluster listing it. -/
def initClusterOf (cs : List RCluster) (eid : Nat) : Option Nat :=
  (cs.find? (fun c => eid ∈ c.members)).map (·.id)

/-- The order-free description of the pass's effect on one employee: excluded
or unlisted employees are untouched; otherwise the scan decision for the
employee in its initial cluster, computed against the initial state and the
frozen snapshot, is applied (or nothing happens when no move is scheduled). -/
def finalEmpSpec (hav : DistFn) (maxWalk : ℚ) (st : PState) (eid : Nat) : REmp :=
  let snap := snapshotOf st.clusters
  if snap = [] then st.emp eid
  else
    match initClusterOf st.clusters eid with
    | none => st.emp eid
    | some cid =>
      if (st.emp eid).excluded then st.emp eid
      else
        match scheduleMove hav snap maxWalk cid (st.emp eid) with
        | none => st.emp eid
        | some m =>
          { st.emp eid with cluster_id := m.1, pickup_point := some m.2.1,
                            walking_distance := some m.2.2 }

/-- Well-formedness of the pass input: distinct cluster ids and no employee
listed twice (in one cluster or across clusters). -/
def WFState (st : PState) : Prop :=
  (st.clusters.map RCluster.id).Nodup ∧ (st.clusters.flatMap RCluster.members).Nodup

/-- The employee record after a scheduled move `m` is applied to it. -/
def movedRec (e : REmp) (m : Nat × Coord × ℚ) : REmp :=
  { e with cluster_id := m.1, pickup_point := some m.2.1,
           walking_distance := some m.2.2 }

/-- One employee's state after the clusters with ids in `p` have been
scanned: moved exactly when its initial cluster has been scanned, it is
active, and the scan decision against the frozen snapshot schedules a
move. -/
def midEmpSpec (hav : DistFn) (maxWalk : ℚ) (st : PState) (p : List Nat)
    (x : Nat) : REmp :=
  match initClusterOf st.clusters x with
  | none => st.emp x
  | some j =>
    if j ∈ p ∧ ¬(st.emp x).excluded then
      match scheduleMove hav (snapshotOf st.clusters) maxWalk j (st.emp x) with
      | some m => movedRec (st.emp x) m
      | none => st.emp x
    else st.emp x

/-- Employee `x` has been moved to cluster `d` by the time the ids in `p`
have been scanned. -/
def MovedTo (hav : DistFn) (maxWalk : ℚ) (st : PState) (p : List Nat)
    (x d : Nat) : Prop :=
  ∃ j m, initClusterOf st.clusters x = some j ∧ j ∈ p ∧
    ¬(st.emp x).excluded ∧
    scheduleMove hav (snapshotOf st.clusters) maxWalk j (st.emp x) = some m ∧
    m.1 = d

/-- Invariant of the cluster-scan loop after scanning the ids in `p`: the
employee map follows `midEmpSpec`, cluster ids are unchanged, and every
not-yet-scanned cluster's member list is its initial list followed by the
employees moved into it so far. -/
def ReassignInv (hav : DistFn) (maxWalk : ℚ) (st : PState) (p : List Nat)
    (stM : PState) : Prop :=
  (∀ x, stM.emp x = midEmpSpec hav maxWalk st p x) ∧
  stM.clusters.map RCluster.id = st.clusters.map RCluster.id ∧
  ∀ k c₀ c, st.clusters.get? k = some c₀ → stM.clusters.get? k = some c →
    c₀.id ∉ p → ∃ extra, c.members = c₀.members ++ extra ∧
      ∀ x ∈ extra, MovedTo hav maxWalk st p x c₀.id

/-!
## Concrete instances used in counterexamples and witnesses
-/

/-- Degenerate distance function (geometry irrelevant to the fact at hand). -/
def hav0 : DistFn := fun _ _ => 0

/-- Distance table for the reassignment scenario: the values a great-circle
distance function returns for points laid out along one meridian, with
employee 1 at 0 m, employee 2 at 10000 m, and stops at 800 m, 10600 m,
300 m and 9450 m (first coordinate = metres along the meridian). -/
def havC3 : DistFn := fun a b =>
  if a = b then 0
  else if a = (0, 0) then
    (if b = (800, 0) then 800 else if b = (10600, 0) then 10600
     else if b = (300, 0) then 300 else 9450)
  else
    (if b = (800, 0) then 9200 else if b = (10600, 0) then 600
     else if b = (300, 0) then 9700 else 550)

/-- A k-means outcome that puts three of five samples in one group:
realizable, e.g. three coincident points and two distant ones make
`{1,2,3},{4},{5}` the exact 3-means optimum. -/
def km1 : KMeansFn := fun _ n => ⟨List.replicate n (0, 0), [0, 0, 0, 1, 2]⟩

/-- A balanced k-means outcome on four samples in two groups. -/
def kmBal : KMeansFn := fun _ n => ⟨List.replicate n (0, 0), [0, 1, 0, 1]⟩

/-- Five active employees in one cluster. -/
def cFive : Cluster :=
  { id := 0, center := (0, 0),
    employees := [⟨1, 0, 0, false⟩, ⟨2, 0, 0, false⟩, ⟨3, 0, 0, false⟩,
                  ⟨4, 0, 0, false⟩, ⟨5, 0, 0, false⟩] }

/-- Four active employees in one cluster. -/
def cFour : Cluster :=
  { id := 0, center := (0, 0),
    employees := [⟨1, 0, 0, false⟩, ⟨2, 0, 0, false⟩, ⟨3, 0, 0, false⟩,
                  ⟨4, 0, 0, false⟩] }

/-- A small already-valid cluster. -/
def cSmall : Cluster :=
  { id := 0, center := (0, 0), employees := [⟨1, 0, 0, false⟩] }

/-- A cluster whose predetermined stop list has exactly one stop. -/
def cOneStop : Cluster :=
  { id := 0, center := (41, 29), employees := [], stops := [(41, 29)] }

/-- A cluster with no stops and no employees. -/
def cBare : Cluster := { id := 0, center := (41, 29), employees := [] }

/-- A routing engine whose every call raises. -/
def engineErr : EngineFn := fun _ _ => .error ()

/-- A routing engine whose answer depends on the profile. -/
def engineByProfile : EngineFn := fun _ profile =>
  if profile = "driving" then .ok ⟨[(41, 29)], 12, 25⟩ else .ok ⟨[(41, 29)], 3, 40⟩

/-- A two-point route query. -/
def ptsX : List Coord := [(41, 29), (42, 29)]

/-- Reassignment scenario (spec §8 Scenario C, max walk 500 m), on a
meridian with `havC3` distances.  Employee 1 of cluster 0: recorded walk
800 m, nearest snapshot stop 300 m away on cluster 1.  Employee 2 of
cluster 0: recorded walk 600 m, best other stop 550 m away on cluster 1. -/
def empC3 : Nat → REmp := fun i =>
  if i = 1 then ⟨(0, 0), false, 0, some (800, 0), some 800⟩
  else if i = 2 then ⟨(10000, 0), false, 0, some (10600, 0), some 600⟩
  else ⟨(0, 0), true, 0, none, none⟩

/-- The two clusters of the scenario: cluster 0 holds both employees, its
route stops at 800 m and 10600 m; cluster 1 has stops at 300 m and 9450 m. -/
def stC3 : PState :=
  { emp := empC3,
    clusters := [⟨0, [1, 2], [(800, 0), (10600, 0)]⟩,
                 ⟨1, [], [(300, 0), (9450, 0)]⟩] }

/-- A cluster whose stop list is a 1000 m straight segment. -/
def cTwoStops : Cluster :=
  { id := 0, center := (0, 0), employees := [], stops := [(0, 0), (1000, 0)] }

/-- What `enforce_capacity_constraints hav0 km1 [cFive] 2` computes to. -/
def outFive : List Cluster :=
  [{ id := 1, center := (0, 0),
     employees := [⟨1, 0, 0, false⟩, ⟨2, 0, 0, false⟩, ⟨3, 0, 0, false⟩],
     parent_cluster_id := some 0 },
   { id := 2, center := (0, 0), employees := [⟨4, 0, 0, false⟩],
     parent_cluster_id := some 0 },
   { id := 3, center := (0, 0), employees := [⟨5, 0, 0, false⟩],
     parent_cluster_id := some 0 }]

/-- What `enforce_capacity_constraints hav0 kmBal [cFour] 2` computes to. -/
def outFour : List Cluster :=
  [{ id := 1, center := (0, 0),
     employees := [⟨1, 0, 0, false⟩, ⟨3, 0, 0, false⟩],
     parent_cluster_id := some 0 },
   { id := 2, center := (0, 0),
     employees := [⟨2, 0, 0, false⟩, ⟨4, 0, 0, false⟩],
     parent_cluster_id := some 0 }]

/-!
## Helper lemmas
-/

theorem enforceGo_identity (hav : DistFn) (km : KMeansFn) (cap : Nat) :
    ∀ (cs : List Cluster) (nid : Nat), (∀ c ∈ cs, c.activeCount ≤ cap) →
      enforceGo hav km cap cs nid = some cs := by
  intro cs
  induction cs with
  | nil => intro nid _; rfl
  | cons c rest ih =>
    intro nid hval
    have hc : c.activeCount ≤ cap := hval c (by simp)
    simp only [enforceGo, if_pos hc, ih nid (fun d hd => hval d (by simp [hd]))]
    rfl

theorem cacheGet_cacheSet_same (cache : CacheMap) (pts : List Coord)
    (dep : Option String) (data : RouteData) :
    cacheGet (cacheSet cache pts dep data) pts dep = some data := by
  simp [cacheGet, cacheSet, List.find?]

theorem getD_indep {α : Type} (l : List α) (i : Nat) (h : i < l.length) (d d' : α) :
    l.getD i d = l.getD i d' := by
  rw [List.getD_eq_getD_get? l d i, List.getD_eq_getD_get? l d' i]
  cases hg : l.get? i with
  | none =>
    rw [List.get?_eq_none] at hg
    omega
  | some a => rfl

theorem updAt_length (l : List Cluster) (i : Nat) (f : Cluster → Cluster) :
    (updAt l i f).length = l.length := by
  induction l generalizing i with
  | nil => rfl
  | cons c rest ih =>
    cases i with
    | zero => rfl
    | succ j => simp [updAt, ih]

theorem updAt_getD_ne (l : List Cluster) (i j : Nat) (f : Cluster → Cluster)
    (d : Cluster) (h : i ≠ j) : (updAt l i f).getD j d = l.getD j d := by
  induction l generalizing i j with
  | nil => rfl
  | cons c rest ih =>
    cases i with
    | zero =>
      cases j with
      | zero => exact absurd rfl h
      | succ j' => rfl
    | succ i' =>
      cases j with
      | zero => rfl
      | succ j' =>
        simp only [updAt, List.getD_cons_succ]
        exact ih i' j' (fun hh => h (by rw [hh]))

theorem updAt_getD_eq (l : List Cluster) (j : Nat) (f : Cluster → Cluster)
    (d : Cluster) (h : j < l.length) : (updAt l j f).getD j d = f (l.getD j d) := by
  induction l generalizing j with
  | nil => simp at h
  | cons c rest ih =>
    cases j with
    | zero => rfl
    | succ j' =>
      simp only [updAt, List.getD_cons_succ]
      exact ih j' (by simpa using h)

theorem addEmpAt_length (subs : List Cluster) (i : Nat) (e : Emp) :
    (addEmpAt subs i e).length = subs.length := updAt_length subs i _

theorem addEmpAt_getD_ne (subs : List Cluster) (i j : Nat) (e : Emp) (d : Cluster)
    (h : i ≠ j) : (addEmpAt subs i e).getD j d = subs.getD j d :=
  updAt_getD_ne subs i j _ d h

theorem addEmpAt_getD_eq (subs : List Cluster) (j : Nat) (e : Emp) (d : Cluster)
    (h : j < subs.length) :
    (addEmpAt subs j e).getD j d =
      { subs.getD j d with employees := (subs.getD j d).employees ++ [e] } :=
  updAt_getD_eq subs j _ d h

theorem assignByLabels_cons (p : Emp × Nat) (ps : List (Emp × Nat))
    (subs : List Cluster) :
    assignByLabels (p :: ps) subs = assignByLabels ps (addEmpAt subs p.2 p.1) := rfl

theorem assignByLabels_length (pairs : List (Emp × Nat)) :
    ∀ subs : List Cluster, (assignByLabels pairs subs).length = subs.length := by
  induction pairs with
  | nil => intro subs; rfl
  | cons p ps ih =>
    intro subs
    rw [assignByLabels_cons, ih, addEmpAt_length]

theorem assignByLabels_getD (pairs : List (Emp × Nat)) :
    ∀ (subs : List Cluster) (j : Nat) (d : Cluster), j < subs.length →
      (∀ p ∈ pairs, p.2 < subs.length) →
      (assignByLabels pairs subs).getD j d =
        { subs.getD j d with employees :=
            (subs.getD j d).employees ++
              ((pairs.filter (fun p => p.2 == j)).map Prod.fst) } := by
  induction pairs with
  | nil =>
    intro subs j d hj _
    simp [assignByLabels]
  | cons p ps ih =>
    intro subs j d hj hlab
    rw [assignByLabels_cons]
    have hlen : (addEmpAt subs p.2 p.1).length = subs.length := addEmpAt_length ..
    have ih' := ih (addEmpAt subs p.2 p.1) j d (by omega)
      (fun q hq => by rw [hlen]; exact hlab q (List.mem_cons_of_mem p hq))
    rw [ih']
    by_cases hpj : p.2 = j
    · subst hpj
      rw [addEmpAt_getD_eq subs p.2 p.1 d (hlab p (List.mem_cons_self p ps))]
      simp [List.filter_cons]
    · rw [addEmpAt_getD_ne subs p.2 j p.1 d hpj]
      simp [List.filter_cons, hpj]

theorem zip_filter_count_le (l₁ : List Emp) :
    ∀ (l₂ : List Nat) (j : Nat),
      ((l₁.zip l₂).filter (fun p => p.2 == j)).length ≤ l₂.count j := by
  induction l₁ with
  | nil => intro l₂ j; simp
  | cons e l ih =>
    intro l₂ j
    cases l₂ with
    | nil => simp
    | cons n ns =>
      have hc : (n :: ns).count j = ns.count j + (if n == j then 1 else 0) := by
        simp [List.count_cons]
      by_cases h : n = j
      · subst h
        simp only [List.zip_cons_cons, List.filter_cons, beq_self_eq_true,
          if_pos trivial, List.length_cons]
        have := ih ns n
        simp only [hc]
        simp
        omega
      · have hb : (n == j) = false := by simp [h]
        simp only [List.zip_cons_cons, List.filter_cons, hb, hc]
        have := ih ns j
        simp
        omega

theorem minIdxBy_cons_eq (f : Cluster → ℚ) (c : Cluster) (rest : List Cluster) :
    minIdxBy f (c :: rest) =
      match minIdxBy f rest with
      | none => some 0
      | some j => if f (rest.getD j c) < f c then some (j + 1) else some 0 := rfl

theorem minIdxBy_lt_length (f : Cluster → ℚ) :
    ∀ (l : List Cluster) (i : Nat), minIdxBy f l = some i → i < l.length := by
  intro l
  induction l with
  | nil => intro i h; simp [minIdxBy] at h
  | cons c rest ih =>
    intro i h
    rw [minIdxBy_cons_eq] at h
    cases hr : minIdxBy f rest with
    | none =>
      simp only [hr] at h
      cases h
      simp
    | some j =>
      simp only [hr] at h
      by_cases hlt : f (rest.getD j c) < f c
      · rw [if_pos hlt] at h
        cases h
        have := ih j hr
        simpa using this
      · rw [if_neg hlt] at h
        cases h
        simp

theorem minIdxBy_isSome (f : Cluster → ℚ) (l : List Cluster) (h : l ≠ []) :
    ∃ i, minIdxBy f l = some i := by
  cases l with
  | nil => exact absurd rfl h
  | cons c rest =>
    rw [minIdxBy_cons_eq]
    cases hr : minIdxBy f rest with
    | none => exact ⟨0, rfl⟩
    | some j =>
      by_cases hlt : f (rest.getD j c) < f c
      · exact ⟨j + 1, by simp only [hr, if_pos hlt]⟩
      · exact ⟨0, by simp only [hr, if_neg hlt]⟩

theorem minIdxBy_min (f : Cluster → ℚ) :
    ∀ (l : List Cluster) (i : Nat) (d : Cluster), minIdxBy f l = some i →
      ∀ j, j < l.length → f (l.getD i d) ≤ f (l.getD j d) := by
  intro l
  induction l with
  | nil => intro i d h; simp [minIdxBy] at h
  | cons c rest ih =>
    intro i d h j hj
    rw [minIdxBy_cons_eq] at h
    cases hr : minIdxBy f rest with
    | none =>
      simp only [hr] at h
      cases h
      -- minIdxBy is none only on the empty list
      cases rest with
      | nil =>
        have hj0 : j = 0 := by simpa using hj
        subst hj0
        simp
      | cons c' rest' =>
        rw [minIdxBy_cons_eq] at hr
        cases hr' : minIdxBy f rest' with
        | none => simp [hr'] at hr
        | some t =>
          simp only [hr'] at hr
          split at hr <;> simp at hr
    | some t =>
      simp only [hr] at h
      have ht : t < rest.length := minIdxBy_lt_length f rest t hr
      by_cases hlt : f (rest.getD t c) < f c
      · rw [if_pos hlt] at h
        cases h
        have hgi : (c :: rest).getD (t + 1) d = rest.getD t d := by simp
        cases j with
        | zero =>
          have hdef : rest.getD t c = rest.getD t d := getD_indep rest t ht c d
          rw [hgi]
          simp only [List.getD_cons_zero]
          rw [← hdef]
          exact le_of_lt hlt
        | succ j' =>
          have hj' : j' < rest.length := by simpa using hj
          rw [hgi]
          simp only [List.getD_cons_succ]
          exact ih t d hr j' hj'
      · rw [if_neg hlt] at h
        cases h
        simp only [List.getD_cons_zero]
        cases j with
        | zero => simp
        | succ j' =>
          have hj' : j' < rest.length := by simpa using hj
          simp only [List.getD_cons_succ]
          have h1 : f (rest.getD t d) ≤ f (rest.getD j' d) := ih t d hr j' hj'
          have hdef : rest.getD t c = rest.getD t d := getD_indep rest t ht c d
          have h2 : f c ≤ f (rest.getD t d) := by
            rw [← hdef]
            exact le_of_not_lt hlt
          exact le_trans h2 h1

theorem getD_of_lt {α : Type} (l : List α) (i : Nat) (d : α) (h : i < l.length) :
    l.getD i d = l.get ⟨i, h⟩ := by
  rw [List.getD_eq_getD_get? l d i, List.get?_eq_get h]
  rfl

theorem rangeMap_getD (n t : Nat) (f : Nat → Cluster) (d : Cluster) (h : t < n) :
    ((List.range n).map f).getD t d = f t := by
  rw [List.getD_eq_getD_get? _ d t, List.get?_map]
  rw [List.get?_range h]
  rfl

theorem addExcluded_cons_eq (hav : DistFn) (e : Emp) (exs : List Emp)
    (subs : List Cluster) :
    addExcluded hav (e :: exs) subs =
      addExcluded hav exs
        (match minIdxBy (fun s => hav e.loc s.center) subs with
         | some i => addEmpAt subs i e
         | none => subs) := rfl

theorem addExcluded_length (hav : DistFn) (exs : List Emp) :
    ∀ subs : List Cluster, (addExcluded hav exs subs).length = subs.length := by
  induction exs with
  | nil => intro subs; rfl
  | cons e exs ih =>
    intro subs
    rw [addExcluded_cons_eq]
    cases hm : minIdxBy (fun s => hav e.loc s.center) subs with
    | none => simp only [hm]; exact ih subs
    | some i =>
      simp only [hm]
      rw [ih (addEmpAt subs i e), addEmpAt_length]

theorem addExcluded_getD_activeCount (hav : DistFn) (exs : List Emp)
    (hexs : ∀ e ∈ exs, e.excluded = true) :
    ∀ (subs : List Cluster) (j : Nat) (d : Cluster),
      ((addExcluded hav exs subs).getD j d).activeCount =
        ((subs.getD j d)).activeCount := by
  induction exs with
  | nil => intro subs j d; rfl
  | cons e exs ih =>
    intro subs j d
    have he : e.excluded = true := hexs e (List.mem_cons_self e exs)
    have hexs' : ∀ e' ∈ exs, e'.excluded = true :=
      fun e' h' => hexs e' (List.mem_cons_of_mem e h')
    rw [addExcluded_cons_eq]
    cases hm : minIdxBy (fun s => hav e.loc s.center) subs with
    | none => simp only [hm]; exact ih hexs' subs j d
    | some i =>
      simp only [hm]
      rw [ih hexs' (addEmpAt subs i e) j d]
      by_cases hij : i = j
      · subst hij
        have hi : i < subs.length := minIdxBy_lt_length _ subs i hm
        rw [addEmpAt_getD_eq subs i e d hi]
        simp [Cluster.activeCount, Cluster.active, List.filter_append, he]
      · rw [addEmpAt_getD_ne subs i j e d hij]

theorem splitOne_sub_activeCount (hav : DistFn) (km : KMeansFn)
    (nextId cap : Nat) (c : Cluster) (subs : List Cluster)
    (h : splitOne hav km nextId cap c = some subs)
    (hbal : ∀ j, ((km c.activeLocs (ceilDiv c.activeCount cap)).labels.count j) ≤ cap) :
    ∀ s ∈ subs, s.activeCount ≤ cap := by
  simp only [splitOne] at h
  split at h
  case isFalse => exact absurd h (by simp)
  case isTrue hcond =>
    obtain ⟨hcen, hlab, hrange⟩ := hcond
    obtain rfl := Option.some.inj h
    intro s hs
    obtain ⟨⟨t, ht⟩, rfl⟩ := List.mem_iff_get.mp hs
    rw [← getD_of_lt _ t c ht]
    have hexcl : ∀ e ∈ c.employees.filter (fun e => e.excluded), e.excluded = true :=
      fun e he => (List.mem_filter.mp he).2
    rw [addExcluded_getD_activeCount hav (c.employees.filter (fun e => e.excluded))
      hexcl]
    have ht' : t < ceilDiv c.active.length cap := by
      rw [addExcluded_length, assignByLabels_length, List.length_map,
        List.length_range] at ht
      exact ht
    have hlabrange : ∀ p ∈ c.active.zip (km (c.active.map Emp.loc)
        (ceilDiv c.active.length cap)).labels,
        p.2 < ((List.range (ceilDiv c.active.length cap)).map (fun i =>
          ({ id := nextId + i,
             center := (km (c.active.map Emp.loc)
               (ceilDiv c.active.length cap)).centers.getD i (0, 0),
             employees := [], zone_id := c.zone_id,
             parent_cluster_id := some c.id } : Cluster))).length := by
      intro p hp
      rw [List.length_map, List.length_range]
      exact hrange p.2 (List.of_mem_zip hp).2
    rw [assignByLabels_getD _ _ t c
      (by rw [List.length_map, List.length_range]; exact ht') hlabrange]
    rw [rangeMap_getD _ t _ c ht']
    have hcount : ((c.active.zip (km (c.active.map Emp.loc)
        (ceilDiv c.active.length cap)).labels).filter
          (fun p => p.2 == t)).length ≤
        (km (c.active.map Emp.loc) (ceilDiv c.active.length cap)).labels.count t :=
      zip_filter_count_le c.active _ t
    have hfin := hbal t
    simp only [Cluster.activeCount, Cluster.active]
    refine le_trans (List.length_filter_le _ _) ?_
    simp only [List.nil_append, List.length_map]
    exact le_trans hcount hfin

theorem enforceGo_bound (hav : DistFn) (km : KMeansFn) (cap : Nat) :
    ∀ (cs : List Cluster) (nid : Nat) (out : List Cluster),
      enforceGo hav km cap cs nid = some out →
      (∀ c ∈ cs, cap < c.activeCount →
        ∀ j, ((km c.activeLocs (ceilDiv c.activeCount cap)).labels.count j) ≤ cap) →
      ∀ c' ∈ out, c'.activeCount ≤ cap := by
  intro cs
  induction cs with
  | nil =>
    intro nid out h _
    obtain rfl := Option.some.inj h
    intro c' hc'
    simp at hc'
  | cons c rest ih =>
    intro nid out h hbal
    simp only [enforceGo] at h
    by_cases hcap : c.activeCount ≤ cap
    · rw [if_pos hcap] at h
      cases ho : enforceGo hav km cap rest nid with
      | none => simp only [ho] at h; simp at h
      | some out' =>
        simp only [ho] at h
        obtain rfl := Option.some.inj h
        intro c' hc'
        rcases List.mem_cons.mp hc' with rfl | hmem
        · exact hcap
        · exact ih nid out' ho
            (fun d hd => hbal d (List.mem_cons_of_mem c hd)) c' hmem
    · rw [if_neg hcap] at h
      by_cases h0 : cap = 0
      · rw [if_pos h0] at h; simp at h
      · rw [if_neg h0] at h
        cases hsp : splitOne hav km nid cap c with
        | none => simp only [hsp] at h; simp at h
        | some subs =>
          simp only [hsp] at h
          cases ho : enforceGo hav km cap rest (nid + ceilDiv c.activeCount cap) with
          | none => simp only [ho] at h; simp at h
          | some out' =>
            simp only [ho] at h
            obtain rfl := Option.some.inj h
            intro c' hc'
            rcases List.mem_append.mp hc' with hmem | hmem
            · exact splitOne_sub_activeCount hav km nid cap c subs hsp
                (hbal c (List.mem_cons_self c rest) (lt_of_not_le hcap)) c' hmem
            · exact ih _ out' ho
                (fun d hd => hbal d (List.mem_cons_of_mem c hd)) c' hmem

theorem flatMap_addEmpAt_perm (e : Emp) :
    ∀ (subs : List Cluster) (i : Nat), i < subs.length →
      ((addEmpAt subs i e).flatMap Cluster.employees).Perm
        (e :: subs.flatMap Cluster.employees) := by
  intro subs
  induction subs with
  | nil => intro i h; simp at h
  | cons c rest ih =>
    intro i h
    cases i with
    | zero =>
      simp only [addEmpAt, updAt, List.flatMap_cons]
      rw [List.append_assoc]
      exact List.perm_middle
    | succ j =>
      have hj : j < rest.length := by simpa using h
      simp only [addEmpAt, updAt, List.flatMap_cons]
      have hih := ih j hj
      refine List.Perm.trans (List.Perm.append_left c.employees hih) ?_
      exact List.perm_middle

theorem flatMap_assignByLabels_perm (pairs : List (Emp × Nat)) :
    ∀ subs : List Cluster, (∀ p ∈ pairs, p.2 < subs.length) →
      ((assignByLabels pairs subs).flatMap Cluster.employees).Perm
        (pairs.map Prod.fst ++ subs.flatMap Cluster.employees) := by
  induction pairs with
  | nil => intro subs _; simp [assignByLabels]
  | cons p ps ih =>
    intro subs hlab
    rw [assignByLabels_cons]
    have h1 : ∀ q ∈ ps, q.2 < (addEmpAt subs p.2 p.1).length := by
      intro q hq
      rw [addEmpAt_length]
      exact hlab q (List.mem_cons_of_mem p hq)
    refine List.Perm.trans (ih (addEmpAt subs p.2 p.1) h1) ?_
    have h2 := flatMap_addEmpAt_perm p.1 subs p.2 (hlab p (List.mem_cons_self p ps))
    refine List.Perm.trans (List.Perm.append_left (ps.map Prod.fst) h2) ?_
    simp only [List.map_cons]
    exact List.perm_middle

theorem flatMap_addExcluded_perm (hav : DistFn) (exs : List Emp) :
    ∀ subs : List Cluster, subs ≠ [] →
      ((addExcluded hav exs subs).flatMap Cluster.employees).Perm
        (exs ++ subs.flatMap Cluster.employees) := by
  induction exs with
  | nil => intro subs _; simp [addExcluded]
  | cons e exs ih =>
    intro subs hne
    rw [addExcluded_cons_eq]
    obtain ⟨i, hi⟩ := minIdxBy_isSome (fun s => hav e.loc s.center) subs hne
    simp only [hi]
    have hlt : i < subs.length := minIdxBy_lt_length _ subs i hi
    have hne' : addEmpAt subs i e ≠ [] := by
      intro hnil
      have hlen := addEmpAt_length subs i e
      rw [hnil] at hlen
      exact hne (List.length_eq_zero.mp hlen.symm)
    refine List.Perm.trans (ih (addEmpAt subs i e) hne') ?_
    refine List.Perm.trans (List.Perm.append_left exs
      (flatMap_addEmpAt_perm e subs i hlt)) ?_
    exact List.perm_middle

theorem active_excluded_perm (c : Cluster) :
    (c.active ++ c.employees.filter (fun e => e.excluded)).Perm c.employees := by
  have h := List.filter_append_perm (fun e => !e.excluded) c.employees
  have heq : c.employees.filter (fun x => !(!x.excluded)) =
      c.employees.filter (fun e => e.excluded) := by
    apply List.filter_congr
    intro x _
    simp
  simpa [Cluster.active, heq] using h

theorem split_construction_perm (hav : DistFn) (actives exs : List Emp)
    (labels : List Nat) (subs0 : List Cluster)
    (hlab : labels.length = actives.length)
    (hrange : ∀ l ∈ labels, l < subs0.length)
    (hempty : ∀ x ∈ subs0, x.employees = [])
    (hne : subs0 ≠ []) :
    ((addExcluded hav exs (assignByLabels (actives.zip labels) subs0)).flatMap
        Cluster.employees).Perm (actives ++ exs) := by
  have h1 : assignByLabels (actives.zip labels) subs0 ≠ [] := by
    intro hnil
    have hl := assignByLabels_length (actives.zip labels) subs0
    rw [hnil] at hl
    exact hne (List.length_eq_zero.mp hl.symm)
  refine List.Perm.trans (flatMap_addExcluded_perm hav exs _ h1) ?_
  have h2 : ∀ p ∈ actives.zip labels, p.2 < subs0.length :=
    fun p hp => hrange p.2 (List.of_mem_zip hp).2
  have h3 := flatMap_assignByLabels_perm (actives.zip labels) subs0 h2
  have h4 : subs0.flatMap Cluster.employees = [] := by
    simp only [List.flatMap_eq_nil_iff]
    exact hempty
  have h5 : (actives.zip labels).map Prod.fst = actives :=
    List.map_fst_zip actives labels (le_of_eq hlab.symm)
  rw [h4, h5] at h3
  refine List.Perm.trans (List.Perm.append_left exs h3) ?_
  simpa using List.perm_append_comm

theorem ceilDiv_pos (a b : Nat) (ha : 1 ≤ a) (hb : b ≠ 0) : 1 ≤ ceilDiv a b := by
  rw [ceilDiv, Nat.one_le_div_iff (Nat.pos_of_ne_zero hb)]
  omega

theorem splitOne_employees_perm (hav : DistFn) (km : KMeansFn)
    (nextId cap : Nat) (c : Cluster) (subs : List Cluster)
    (h : splitOne hav km nextId cap c = some subs)
    (hcap : cap < c.activeCount) (h0 : cap ≠ 0) :
    (subs.flatMap Cluster.employees).Perm c.employees := by
  simp only [splitOne] at h
  split at h
  case isFalse => exact absurd h (by simp)
  case isTrue hcond =>
    obtain ⟨hcen, hlab, hrange⟩ := hcond
    obtain rfl := Option.some.inj h
    have hn : 1 ≤ ceilDiv c.active.length cap :=
      ceilDiv_pos _ _ (by have : cap < c.active.length := hcap; omega) h0
    refine List.Perm.trans (split_construction_perm hav c.active _ _ _ hlab
      ?_ ?_ ?_) (active_excluded_perm c)
    · intro l hl
      rw [List.length_map, List.length_range]
      exact hrange l hl
    · intro x hx
      obtain ⟨i, _, rfl⟩ := List.mem_map.mp hx
      rfl
    · intro hnil
      have hl : ((List.range (ceilDiv c.active.length cap)).map (fun i =>
          ({ id := nextId + i,
             center := (km (c.active.map Emp.loc)
               (ceilDiv c.active.length cap)).centers.getD i (0, 0),
             employees := [], zone_id := c.zone_id,
             parent_cluster_id := some c.id } : Cluster))).length =
          ceilDiv c.active.length cap := by
        rw [List.length_map, List.length_range]
      rw [hnil] at hl
      simp at hl
      omega

theorem enforceGo_employees_perm (hav : DistFn) (km : KMeansFn) (cap : Nat) :
    ∀ (cs : List Cluster) (nid : Nat) (out : List Cluster),
      enforceGo hav km cap cs nid = some out →
      (out.flatMap Cluster.employees).Perm (cs.flatMap Cluster.employees) := by
  intro cs
  induction cs with
  | nil =>
    intro nid out h
    obtain rfl := Option.some.inj h
    rfl
  | cons c rest ih =>
    intro nid out h
    simp only [enforceGo] at h
    by_cases hcap : c.activeCount ≤ cap
    · rw [if_pos hcap] at h
      cases ho : enforceGo hav km cap rest nid with
      | none => simp only [ho] at h; simp at h
      | some out' =>
        simp only [ho] at h
        obtain rfl := Option.some.inj h
        simp only [List.flatMap_cons]
        exact List.Perm.append_left c.employees (ih nid out' ho)
    · rw [if_neg hcap] at h
      by_cases h0 : cap = 0
      · rw [if_pos h0] at h; simp at h
      · rw [if_neg h0] at h
        cases hsp : splitOne hav km nid cap c with
        | none => simp only [hsp] at h; simp at h
        | some subs =>
          simp only [hsp] at h
          cases ho : enforceGo hav km cap rest (nid + ceilDiv c.activeCount cap) with
          | none => simp only [ho] at h; simp at h
          | some out' =>
            simp only [ho] at h
            obtain rfl := Option.some.inj h
            simp only [List.flatMap_append, List.flatMap_cons]
            exact List.Perm.append
              (splitOne_employees_perm hav km nid cap c subs hsp
                (lt_of_not_le hcap) h0)
              (ih _ out' ho)

theorem updAt_out (f : Cluster → Cluster) :
    ∀ (l : List Cluster) (i : Nat), l.length ≤ i → updAt l i f = l := by
  intro l
  induction l with
  | nil => intro i _; rfl
  | cons c rest ih =>
    intro i hi
    cases i with
    | zero => simp at hi
    | succ j =>
      simp only [updAt]
      rw [ih j (by simpa using hi)]

theorem addEmpAt_getD_shape (subs : List Cluster) (i : Nat) (e : Emp) (j : Nat)
    (d : Cluster) :
    ((addEmpAt subs i e).getD j d).center = (subs.getD j d).center ∧
    ((addEmpAt subs i e).getD j d).parent_cluster_id =
      (subs.getD j d).parent_cluster_id := by
  by_cases hij : i = j
  · subst hij
    by_cases hi : i < subs.length
    · rw [addEmpAt_getD_eq subs i e d hi]
      exact ⟨rfl, rfl⟩
    · rw [show addEmpAt subs i e = subs from updAt_out _ subs i (le_of_not_lt hi)]
      exact ⟨rfl, rfl⟩
  · rw [addEmpAt_getD_ne subs i j e d hij]
    exact ⟨rfl, rfl⟩

theorem addEmpAt_getD_mem_mono (subs : List Cluster) (i : Nat) (e : Emp) (j : Nat)
    (d : Cluster) (e' : Emp) (h : e' ∈ (subs.getD j d).employees) :
    e' ∈ ((addEmpAt subs i e).getD j d).employees := by
  by_cases hij : i = j
  · subst hij
    by_cases hi : i < subs.length
    · rw [addEmpAt_getD_eq subs i e d hi]
      exact List.mem_append_left _ h
    · rw [show addEmpAt subs i e = subs from updAt_out _ subs i (le_of_not_lt hi)]
      exact h
  · rw [addEmpAt_getD_ne subs i j e d hij]
    exact h

theorem assignByLabels_getD_shape (pairs : List (Emp × Nat)) :
    ∀ (subs : List Cluster) (j : Nat) (d : Cluster),
      ((assignByLabels pairs subs).getD j d).center = (subs.getD j d).center ∧
      ((assignByLabels pairs subs).getD j d).parent_cluster_id =
        (subs.getD j d).parent_cluster_id := by
  induction pairs with
  | nil => intro subs j d; exact ⟨rfl, rfl⟩
  | cons p ps ih =>
    intro subs j d
    rw [assignByLabels_cons]
    obtain ⟨h1, h2⟩ := ih (addEmpAt subs p.2 p.1) j d
    obtain ⟨h3, h4⟩ := addEmpAt_getD_shape subs p.2 p.1 j d
    exact ⟨h1.trans h3, h2.trans h4⟩

theorem addExcluded_getD_shape (hav : DistFn) :
    ∀ (exs : List Emp) (subs : List Cluster) (j : Nat) (d : Cluster),
      ((addExcluded hav exs subs).getD j d).center = (subs.getD j d).center ∧
      ((addExcluded hav exs subs).getD j d).parent_cluster_id =
        (subs.getD j d).parent_cluster_id := by
  intro exs
  induction exs with
  | nil => intro subs j d; exact ⟨rfl, rfl⟩
  | cons e exs ih =>
    intro subs j d
    rw [addExcluded_cons_eq]
    cases hm : minIdxBy (fun s => hav e.loc s.center) subs with
    | none => simp only [hm]; exact ih subs j d
    | some i =>
      simp only [hm]
      obtain ⟨h1, h2⟩ := ih (addEmpAt subs i e) j d
      obtain ⟨h3, h4⟩ := addEmpAt_getD_shape subs i e j d
      exact ⟨h1.trans h3, h2.trans h4⟩

theorem addExcluded_getD_mem_mono (hav : DistFn) :
    ∀ (exs : List Emp) (subs : List Cluster) (j : Nat) (d : Cluster) (e' : Emp),
      e' ∈ (subs.getD j d).employees →
      e' ∈ ((addExcluded hav exs subs).getD j d).employees := by
  intro exs
  induction exs with
  | nil => intro subs j d e' h; exact h
  | cons e exs ih =>
    intro subs j d e' h
    rw [addExcluded_cons_eq]
    cases hm : minIdxBy (fun s => hav e.loc s.center) subs with
    | none => simp only [hm]; exact ih subs j d e' h
    | some i =>
      simp only [hm]
      exact ih (addEmpAt subs i e) j d e' (addEmpAt_getD_mem_mono subs i e j d e' h)

theorem addExcluded_mem_of_mem (hav : DistFn) :
    ∀ (exs : List Emp) (subs : List Cluster) (e : Emp) (d : Cluster),
      e ∈ exs → subs ≠ [] →
      ∃ t, t < subs.length ∧
        e ∈ ((addExcluded hav exs subs).getD t d).employees ∧
        ∀ t', t' < subs.length →
          hav e.loc ((subs.getD t d)).center ≤ hav e.loc ((subs.getD t' d)).center := by
  intro exs
  induction exs with
  | nil => intro subs e d h _; simp at h
  | cons x exs ih =>
    intro subs e d hmem hne
    obtain ⟨i, hi⟩ := minIdxBy_isSome (fun s => hav x.loc s.center) subs hne
    rw [addExcluded_cons_eq]
    simp only [hi]
    have hlt : i < subs.length := minIdxBy_lt_length _ subs i hi
    rcases List.mem_cons.mp hmem with rfl | hmem'
    · refine ⟨i, hlt, ?_, ?_⟩
      · apply addExcluded_getD_mem_mono
        rw [addEmpAt_getD_eq subs i e d hlt]
        simp
      · intro t' ht'
        exact minIdxBy_min _ subs i d hi t' ht'
    · have hlen : (addEmpAt subs i x).length = subs.length := addEmpAt_length ..
      have hne' : addEmpAt subs i x ≠ [] := by
        intro hnil
        rw [hnil] at hlen
        exact hne (List.length_eq_zero.mp hlen.symm)
      obtain ⟨t, ht, hmem2, hmin⟩ := ih (addEmpAt subs i x) e d hmem' hne'
      refine ⟨t, by omega, hmem2, ?_⟩
      intro t' ht'
      have h1 := hmin t' (by omega)
      rw [(addEmpAt_getD_shape subs i x t d).1,
        (addEmpAt_getD_shape subs i x t' d).1] at h1
      exact h1

theorem getD_mem_of_lt (l : List Cluster) (t : Nat) (d : Cluster)
    (h : t < l.length) : l.getD t d ∈ l := by
  rw [getD_of_lt l t d h]
  exact List.get_mem l t h

theorem split_construction_placement (hav : DistFn) (exs : List Emp)
    (pairs : List (Emp × Nat)) (subs0 : List Cluster) (d : Cluster)
    (hrange : ∀ p ∈ pairs, p.2 < subs0.length)
    (hne : subs0 ≠ []) :
    (∀ e ∈ exs,
      ∃ sub, sub ∈ addExcluded hav exs (assignByLabels pairs subs0) ∧
        e ∈ sub.employees ∧
        ∃ t, t < subs0.length ∧
          sub.parent_cluster_id = (subs0.getD t d).parent_cluster_id ∧
          sub.center = (subs0.getD t d).center ∧
          ∀ t', t' < subs0.length →
            hav e.loc (subs0.getD t d).center ≤ hav e.loc (subs0.getD t' d).center) ∧
    (∀ p ∈ pairs,
      ∃ sub, sub ∈ addExcluded hav exs (assignByLabels pairs subs0) ∧
        p.1 ∈ sub.employees ∧
        sub.parent_cluster_id = (subs0.getD p.2 d).parent_cluster_id ∧
        sub.center = (subs0.getD p.2 d).center) := by
  have hS1len : (assignByLabels pairs subs0).length = subs0.length :=
    assignByLabels_length pairs subs0
  have hS1ne : assignByLabels pairs subs0 ≠ [] := by
    intro hnil
    rw [hnil] at hS1len
    exact hne (List.length_eq_zero.mp hS1len.symm)
  constructor
  · intro e hmem
    obtain ⟨t, ht, hmem2, hmin⟩ :=
      addExcluded_mem_of_mem hav exs (assignByLabels pairs subs0) e d hmem hS1ne
    refine ⟨(addExcluded hav exs (assignByLabels pairs subs0)).getD t d,
      getD_mem_of_lt _ t d (by rw [addExcluded_length]; exact ht), hmem2,
      t, by omega, ?_, ?_, ?_⟩
    · rw [(addExcluded_getD_shape hav exs (assignByLabels pairs subs0) t d).2,
        (assignByLabels_getD_shape pairs subs0 t d).2]
    · rw [(addExcluded_getD_shape hav exs (assignByLabels pairs subs0) t d).1,
        (assignByLabels_getD_shape pairs subs0 t d).1]
    · intro t' ht'
      have h1 := hmin t' (by omega)
      rw [(assignByLabels_getD_shape pairs subs0 t d).1,
        (assignByLabels_getD_shape pairs subs0 t' d).1] at h1
      exact h1
  · intro p hp
    have htp : p.2 < subs0.length := hrange p hp
    refine ⟨(addExcluded hav exs (assignByLabels pairs subs0)).getD p.2 d,
      getD_mem_of_lt _ p.2 d (by rw [addExcluded_length, hS1len]; exact htp),
      ?_, ?_, ?_⟩
    · apply addExcluded_getD_mem_mono
      rw [assignByLabels_getD pairs subs0 p.2 d htp (fun q hq => hrange q hq)]
      refine List.mem_append_right _ ?_
      exact List.mem_map_of_mem Prod.fst (List.mem_filter.mpr ⟨hp, by simp⟩)
    · rw [(addExcluded_getD_shape hav exs (assignByLabels pairs subs0) p.2 d).2,
        (assignByLabels_getD_shape pairs subs0 p.2 d).2]
    · rw [(addExcluded_getD_shape hav exs (assignByLabels pairs subs0) p.2 d).1,
        (assignByLabels_getD_shape pairs subs0 p.2 d).1]

theorem splitOne_placement (hav : DistFn) (km : KMeansFn) (nextId cap : Nat)
    (c : Cluster) (subs : List Cluster)
    (h : splitOne hav km nextId cap c = some subs)
    (hcap : cap < c.activeCount) (h0 : cap ≠ 0) :
    (∀ e ∈ c.employees, e.excluded = true →
      ∃ sub, sub ∈ subs ∧ e ∈ sub.employees ∧
        sub.parent_cluster_id = some c.id ∧
        ∀ ctr ∈ (km (c.active.map Emp.loc) (ceilDiv c.active.length cap)).centers,
          hav e.loc sub.center ≤ hav e.loc ctr) ∧
    (∀ p ∈ c.active.zip (km (c.active.map Emp.loc)
        (ceilDiv c.active.length cap)).labels,
      ∃ sub, sub ∈ subs ∧ p.1 ∈ sub.employees ∧
        sub.parent_cluster_id = some c.id ∧
        sub.center = (km (c.active.map Emp.loc)
          (ceilDiv c.active.length cap)).centers.getD p.2 (0, 0)) := by
  simp only [splitOne] at h
  split at h
  case isFalse => exact absurd h (by simp)
  case isTrue hcond =>
    obtain ⟨hcen, hlab, hrange⟩ := hcond
    obtain rfl := Option.some.inj h
    have hn : 1 ≤ ceilDiv c.active.length cap :=
      ceilDiv_pos _ _ (by have : cap < c.active.length := hcap; omega) h0
    have hlen0 : ((List.range (ceilDiv c.active.length cap)).map (fun i =>
        ({ id := nextId + i,
           center := (km (c.active.map Emp.loc)
             (ceilDiv c.active.length cap)).centers.getD i (0, 0),
           employees := [], zone_id := c.zone_id,
           parent_cluster_id := some c.id } : Cluster))).length =
        ceilDiv c.active.length cap := by
      rw [List.length_map, List.length_range]
    have hne0 : ((List.range (ceilDiv c.active.length cap)).map (fun i =>
        ({ id := nextId + i,
           center := (km (c.active.map Emp.loc)
             (ceilDiv c.active.length cap)).centers.getD i (0, 0),
           employees := [], zone_id := c.zone_id,
           parent_cluster_id := some c.id } : Cluster))) ≠ [] := by
      intro hnil
      rw [hnil] at hlen0
      simp at hlen0
      omega
    have hrange' : ∀ p ∈ c.active.zip (km (c.active.map Emp.loc)
        (ceilDiv c.active.length cap)).labels,
        p.2 < ((List.range (ceilDiv c.active.length cap)).map (fun i =>
          ({ id := nextId + i,
             center := (km (c.active.map Emp.loc)
               (ceilDiv c.active.length cap)).centers.getD i (0, 0),
             employees := [], zone_id := c.zone_id,
             parent_cluster_id := some c.id } : Cluster))).length := by
      intro p hp
      rw [hlen0]
      exact hrange p.2 (List.of_mem_zip hp).2
    obtain ⟨hA, hB⟩ := split_construction_placement hav
      (c.employees.filter (fun e => e.excluded))
      (c.active.zip (km (c.active.map Emp.loc)
        (ceilDiv c.active.length cap)).labels)
      ((List.range (ceilDiv c.active.length cap)).map (fun i =>
        ({ id := nextId + i,
           center := (km (c.active.map Emp.loc)
             (ceilDiv c.active.length cap)).centers.getD i (0, 0),
           employees := [], zone_id := c.zone_id,
           parent_cluster_id := some c.id } : Cluster)))
      c hrange' hne0
    constructor
    · intro e hememp hexc
      obtain ⟨sub, hsub, hmem, t, ht, hpar, hctr, hmin⟩ :=
        hA e (List.mem_filter.mpr ⟨hememp, hexc⟩)
      rw [hlen0] at ht
      rw [rangeMap_getD _ t _ c ht] at hpar hctr hmin
      refine ⟨sub, hsub, hmem, hpar, ?_⟩
      intro ctr hc
      obtain ⟨⟨t', hlt'⟩, rfl⟩ := List.mem_iff_get.mp hc
      have ht' : t' < ceilDiv c.active.length cap := by
        have := hlt'
        rw [hcen] at this
        exact this
      have hm := hmin t' (by rw [hlen0]; exact ht')
      rw [rangeMap_getD _ t' _ c ht'] at hm
      rw [hctr]
      rw [← getD_of_lt _ t' (0, 0) hlt']
      exact hm
    · intro p hp
      obtain ⟨sub, hsub, hmem, hpar, hctr⟩ := hB p hp
      have htp : p.2 < ceilDiv c.active.length cap :=
        hrange p.2 (List.of_mem_zip hp).2
      rw [rangeMap_getD _ p.2 _ c htp] at hpar hctr
      exact ⟨sub, hsub, hmem, hpar, hctr⟩

theorem enforceGo_placement (hav : DistFn) (km : KMeansFn) (cap : Nat) :
    ∀ (cs : List Cluster) (nid : Nat) (out : List Cluster),
      enforceGo hav km cap cs nid = some out →
      ∀ c ∈ cs, cap < c.activeCount →
        (∀ e ∈ c.employees, e.excluded = true →
          ∃ sub, sub ∈ out ∧ e ∈ sub.employees ∧
            sub.parent_cluster_id = some c.id ∧
            ∀ ctr ∈ (km (c.active.map Emp.loc)
                (ceilDiv c.active.length cap)).centers,
              hav e.loc sub.center ≤ hav e.loc ctr) ∧
        (∀ p ∈ c.active.zip (km (c.active.map Emp.loc)
            (ceilDiv c.active.length cap)).labels,
          ∃ sub, sub ∈ out ∧ p.1 ∈ sub.employees ∧
            sub.parent_cluster_id = some c.id ∧
            sub.center = (km (c.active.map Emp.loc)
              (ceilDiv c.active.length cap)).centers.getD p.2 (0, 0)) := by
  intro cs
  induction cs with
  | nil => intro nid out _ c hc; simp at hc
  | cons c0 rest ih =>
    intro nid out h c hc hover
    simp only [enforceGo] at h
    by_cases hcap : c0.activeCount ≤ cap
    · rw [if_pos hcap] at h
      cases ho : enforceGo hav km cap rest nid with
      | none => simp only [ho] at h; simp at h
      | some out' =>
        simp only [ho] at h
        obtain rfl := Option.some.inj h
        rcases List.mem_cons.mp hc with rfl | hmem
        · exact absurd hover (not_lt_of_le hcap)
        · obtain ⟨hA, hB⟩ := ih nid out' ho c hmem hover
          constructor
          · intro e he hexc
            obtain ⟨sub, hsub, rest'⟩ := hA e he hexc
            exact ⟨sub, List.mem_cons_of_mem c0 hsub, rest'⟩
          · intro p hp
            obtain ⟨sub, hsub, rest'⟩ := hB p hp
            exact ⟨sub, List.mem_cons_of_mem c0 hsub, rest'⟩
    · rw [if_neg hcap] at h
      by_cases h0 : cap = 0
      · rw [if_pos h0] at h; simp at h
      · rw [if_neg h0] at h
        cases hsp : splitOne hav km nid cap c0 with
        | none => simp only [hsp] at h; simp at h
        | some subs =>
          simp only [hsp] at h
          cases ho : enforceGo hav km cap rest (nid + ceilDiv c0.activeCount cap) with
          | none => simp only [ho] at h; simp at h
          | some out' =>
            simp only [ho] at h
            obtain rfl := Option.some.inj h
            rcases List.mem_cons.mp hc with rfl | hmem
            · obtain ⟨hA, hB⟩ := splitOne_placement hav km nid cap c subs hsp
                (lt_of_not_le hcap) h0
              constructor
              · intro e he hexc
                obtain ⟨sub, hsub, rest'⟩ := hA e he hexc
                exact ⟨sub, List.mem_append_left out' hsub, rest'⟩
              · intro p hp
                obtain ⟨sub, hsub, rest'⟩ := hB p hp
                exact ⟨sub, List.mem_append_left out' hsub, rest'⟩
            · obtain ⟨hA, hB⟩ := ih _ out' ho c hmem hover
              constructor
              · intro e he hexc
                obtain ⟨sub, hsub, rest'⟩ := hA e he hexc
                exact ⟨sub, List.mem_append_right subs hsub, rest'⟩
              · intro p hp
                obtain ⟨sub, hsub, rest'⟩ := hB p hp
                exact ⟨sub, List.mem_append_right subs hsub, rest'⟩

theorem rowBestAux_some_spec :
    ∀ (row : List (Option ℚ)) (k bi : Nat) (bv : ℚ),
      (rowBestAux row k (some (bi, bv)) = some (bi, bv) ∧
        ∀ j w, row.get? j = some (some w) → bv ≤ w) ∨
      (∃ i v, rowBestAux row k (some (bi, bv)) = some (k + i, v) ∧
        row.get? i = some (some v) ∧ v < bv ∧
        (∀ j w, row.get? j = some (some w) → v ≤ w) ∧
        (∀ j, j < i → ∀ w, row.get? j = some (some w) → v < w)) := by
  intro row
  induction row with
  | nil =>
    intro k bi bv
    left
    exact ⟨rfl, by simp⟩
  | cons d rest ih =>
    intro k bi bv
    cases d with
    | none =>
      rcases ih (k + 1) bi bv with ⟨hres, hmin⟩ | ⟨i, v, hres, hget, hlt, hmin, hfirst⟩
      · left
        refine ⟨hres, ?_⟩
        intro j w hj
        cases j with
        | zero => simp at hj
        | succ j' => exact hmin j' w hj
      · right
        refine ⟨i + 1, v, ?_, hget, hlt, ?_, ?_⟩
        · rw [show k + (i + 1) = k + 1 + i by omega]
          exact hres
        · intro j w hj
          cases j with
          | zero => simp at hj
          | succ j' => exact hmin j' w hj
        · intro j hji w hj
          cases j with
          | zero => simp at hj
          | succ j' => exact hfirst j' (by omega) w hj
    | some v0 =>
      by_cases hv : v0 < bv
      · simp only [rowBestAux, if_pos hv]
        rcases ih (k + 1) k v0 with ⟨hres, hmin⟩ | ⟨i, v, hres, hget, hlt, hmin, hfirst⟩
        · right
          refine ⟨0, v0, ?_, by simp, hv, ?_, ?_⟩
          · rw [show k + 0 = k by omega]
            exact hres
          · intro j w hj
            cases j with
            | zero => simp at hj; exact le_of_eq hj
            | succ j' => exact hmin j' w hj
          · intro j hji w hj
            omega
        · right
          refine ⟨i + 1, v, ?_, hget, by linarith, ?_, ?_⟩
          · rw [show k + (i + 1) = k + 1 + i by omega]
            exact hres
          · intro j w hj
            cases j with
            | zero =>
              simp at hj
              linarith
            | succ j' => exact hmin j' w hj
          · intro j hji w hj
            cases j with
            | zero =>
              simp at hj
              linarith
            | succ j' => exact hfirst j' (by omega) w hj
      · simp only [rowBestAux, if_neg hv]
        rcases ih (k + 1) bi bv with ⟨hres, hmin⟩ | ⟨i, v, hres, hget, hlt, hmin, hfirst⟩
        · left
          refine ⟨hres, ?_⟩
          intro j w hj
          cases j with
          | zero =>
            simp at hj
            rw [← hj]
            exact le_of_not_lt hv
          | succ j' => exact hmin j' w hj
        · right
          refine ⟨i + 1, v, ?_, hget, hlt, ?_, ?_⟩
          · rw [show k + (i + 1) = k + 1 + i by omega]
            exact hres
          · intro j w hj
            cases j with
            | zero =>
              simp at hj
              have := le_of_not_lt hv
              linarith
            | succ j' => exact hmin j' w hj
          · intro j hji w hj
            cases j with
            | zero =>
              simp at hj
              have := le_of_not_lt hv
              linarith
            | succ j' => exact hfirst j' (by omega) w hj

theorem rowBestAux_none_spec :
    ∀ (row : List (Option ℚ)) (k : Nat),
      (rowBestAux row k none = none ∧
        ∀ j w, row.get? j = some (some w) → False) ∨
      (∃ i v, rowBestAux row k none = some (k + i, v) ∧
        row.get? i = some (some v) ∧
        (∀ j w, row.get? j = some (some w) → v ≤ w) ∧
        (∀ j, j < i → ∀ w, row.get? j = some (some w) → v < w)) := by
  intro row
  induction row with
  | nil =>
    intro k
    left
    exact ⟨rfl, by simp⟩
  | cons d rest ih =>
    intro k
    cases d with
    | none =>
      rcases ih (k + 1) with ⟨hres, hnone⟩ | ⟨i, v, hres, hget, hmin, hfirst⟩
      · left
        refine ⟨hres, ?_⟩
        intro j w hj
        cases j with
        | zero => simp at hj
        | succ j' => exact hnone j' w hj
      · right
        refine ⟨i + 1, v, ?_, hget, ?_, ?_⟩
        · rw [show k + (i + 1) = k + 1 + i by omega]
          exact hres
        · intro j w hj
          cases j with
          | zero => simp at hj
          | succ j' => exact hmin j' w hj
        · intro j hji w hj
          cases j with
          | zero => simp at hj
          | succ j' => exact hfirst j' (by omega) w hj
    | some v0 =>
      have hstep : rowBestAux (some v0 :: rest) k none =
          rowBestAux rest (k + 1) (some (k, v0)) := rfl
      rcases rowBestAux_some_spec rest (k + 1) k v0 with
        ⟨hres, hmin⟩ | ⟨i, v, hres, hget, hlt, hmin, hfirst⟩
      · right
        refine ⟨0, v0, ?_, by simp, ?_, ?_⟩
        · rw [hstep, show k + 0 = k by omega]
          exact hres
        · intro j w hj
          cases j with
          | zero => simp at hj; exact le_of_eq hj
          | succ j' => exact hmin j' w hj
        · intro j hji w hj
          omega
      · right
        refine ⟨i + 1, v, ?_, hget, ?_, ?_⟩
        · rw [hstep, show k + (i + 1) = k + 1 + i by omega]
          exact hres
        · intro j w hj
          cases j with
          | zero =>
            simp at hj
            linarith
          | succ j' => exact hmin j' w hj
        · intro j hji w hj
          cases j with
          | zero =>
            simp at hj
            linarith
          | succ j' => exact hfirst j' (by omega) w hj

theorem matchGo_spec (matrix : List (List (Option ℚ))) (cands : List Coord) :
    ∀ (emps : List MEmp) (i : Nat),
      ((matchFromMatrixGo matrix cands emps i).filter (fun e => e.excluded) =
        emps.filter (fun e => e.excluded)) ∧
      ∀ k a, (emps.filter (fun e => !e.excluded)).get? k = some a →
        ((matchFromMatrixGo matrix cands emps i).filter
            (fun e => !e.excluded)).get? k =
          some (match rowBest (matrix.getD (i + k) []) with
                | some b =>
                  { a with pickup_point := some (cands.getD b.1 (0, 0)),
                           walking_distance := some b.2 }
                | none => a) := by
  intro emps
  induction emps with
  | nil =>
    intro i
    refine ⟨rfl, ?_⟩
    intro k a h
    simp at h
  | cons e rest ih =>
    intro i
    cases hexc : e.excluded with
    | true =>
      have hstep : matchFromMatrixGo matrix cands (e :: rest) i =
          e :: matchFromMatrixGo matrix cands rest i := by
        simp [matchFromMatrixGo, hexc]
      constructor
      · rw [hstep]
        simp only [List.filter_cons, hexc, if_pos trivial]
        rw [(ih i).1]
      · intro k a hk
        rw [hstep]
        simp only [List.filter_cons, hexc] at hk ⊢
        simp only [Bool.not_true, Bool.false_eq_true, if_false] at hk ⊢
        exact (ih i).2 k a hk
    | false =>
      cases hrb : rowBest (matrix.getD i []) with
      | none =>
        have hstep : matchFromMatrixGo matrix cands (e :: rest) i =
            e :: matchFromMatrixGo matrix cands rest (i + 1) := by
          simp only [matchFromMatrixGo, hexc, Bool.false_eq_true, if_false, hrb]
        constructor
        · rw [hstep]
          simp only [List.filter_cons, hexc, Bool.false_eq_true, if_false]
          exact (ih (i + 1)).1
        · intro k a hk
          rw [hstep]
          simp only [List.filter_cons, hexc, Bool.not_false, if_pos trivial] at hk ⊢
          cases k with
          | zero =>
            simp only [List.get?] at hk ⊢
            obtain rfl := Option.some.inj hk
            rw [Nat.add_zero, hrb]
          | succ k' =>
            simp only [List.get?] at hk ⊢
            rw [show i + (k' + 1) = i + 1 + k' by omega]
            exact (ih (i + 1)).2 k' a hk
      | some b =>
        have hstep : matchFromMatrixGo matrix cands (e :: rest) i =
            ({ e with pickup_point := some (cands.getD b.1 (0, 0)),
                      walking_distance := some b.2 } : MEmp) ::
              matchFromMatrixGo matrix cands rest (i + 1) := by
          simp only [matchFromMatrixGo, hexc, Bool.false_eq_true, if_false, hrb]
        have he' : ({ e with pickup_point := some (cands.getD b.1 (0, 0)),
                              walking_distance := some b.2 } : MEmp).excluded =
            false := hexc
        constructor
        · rw [hstep]
          simp only [List.filter_cons, hexc, he', Bool.false_eq_true, if_false]
          exact (ih (i + 1)).1
        · intro k a hk
          rw [hstep]
          simp only [List.filter_cons, hexc, he', Bool.not_false,
            if_pos trivial] at hk ⊢
          cases k with
          | zero =>
            simp only [List.get?] at hk ⊢
            obtain rfl := Option.some.inj hk
            rw [Nat.add_zero, hrb]
            simp [hexc]
          | succ k' =>
            simp only [List.get?] at hk ⊢
            rw [show i + (k' + 1) = i + 1 + k' by omega]
            exact (ih (i + 1)).2 k' a hk

theorem find?_first_spec {α : Type} (l : List α) (p : α → Bool) (x : α)
    (h : l.find? p = some x) :
    ∃ k, l.get? k = some x ∧ p x = true ∧
      ∀ j, j < k → ∀ b, l.get? j = some b → p b = false := by
  induction l with
  | nil => cases h
  | cons a t ih =>
    cases hpa : p a with
    | true =>
      rw [List.find?_cons_of_pos _ hpa] at h
      refine ⟨0, ?_, ?_, ?_⟩
      · rw [← h]; rfl
      · rw [← Option.some.inj h]; exact hpa
      · intro j hj; omega
    | false =>
      rw [List.find?_cons_of_neg _ (by simp [hpa])] at h
      obtain ⟨k, hk, hx, hprev⟩ := ih h
      refine ⟨k + 1, hk, hx, ?_⟩
      intro j hj b hb
      match j with
      | 0 => exact (Option.some.inj hb) ▸ hpa
      | Nat.succ j' => exact hprev j' (by omega) b hb

theorem firstContaining_some_spec (zg : ZoneGeo) (n : Nat) (p : Coord) (i : Nat)
    (h : firstContainingZone zg n p = some i) :
    i < n ∧ zg.contains i p = true ∧ ∀ j, j < i → zg.contains j p = false := by
  obtain ⟨k, hk, hx, hprev⟩ := find?_first_spec (List.range n) _ i h
  have hkn : k < n := by
    by_contra hh
    rw [List.get?_eq_none.mpr (by simpa [List.length_range] using Nat.le_of_not_lt hh)] at hk
    cases hk
  rw [List.get?_range hkn] at hk
  have hki : k = i := Option.some.inj hk
  subst hki
  refine ⟨hkn, hx, ?_⟩
  intro j hj
  exact hprev j hj j (List.get?_range (lt_trans hj hkn))

theorem firstContaining_none_spec (zg : ZoneGeo) (n : Nat) (p : Coord)
    (h : firstContainingZone zg n p = none) :
    ∀ j, j < n → zg.contains j p = false := by
  intro j hj
  have := List.find?_eq_none.mp h j (List.mem_range.mpr hj)
  simpa using this

theorem minIdxRange_spec (f : Nat → ℚ) :
    ∀ n, 0 < n → ∃ i, minIdxRange f n = some i ∧ i < n ∧
      (∀ j, j < n → f i ≤ f j) ∧ ∀ j, j < i → f i < f j := by
  intro n
  induction n with
  | zero => intro h; exact absurd h (lt_irrefl 0)
  | succ m ih =>
    intro _
    rcases Nat.eq_zero_or_pos m with hm | hm
    · subst hm
      refine ⟨0, rfl, Nat.zero_lt_one, ?_, ?_⟩
      · intro j hj
        have : j = 0 := by omega
        subst this; exact le_refl _
      · intro j hj; exact absurd hj (Nat.not_lt_zero j)
    · obtain ⟨i, hi, hlt, hmin, hfirst⟩ := ih hm
      rw [minIdxRange] at hi
      have hunf : minIdxRange f (m + 1) =
          if f m < f i then some m else some i := by
        rw [minIdxRange, List.range_succ, List.foldl_append, hi]
        rfl
      by_cases hc : f m < f i
      · refine ⟨m, by rw [hunf, if_pos hc], Nat.lt_succ_self m, ?_, ?_⟩
        · intro j hj
          rcases Nat.lt_succ_iff_lt_or_eq.mp hj with h | h
          · exact le_of_lt (lt_of_lt_of_le hc (hmin j h))
          · subst h; exact le_refl _
        · intro j hj
          exact lt_of_lt_of_le hc (hmin j hj)
      · refine ⟨i, by rw [hunf, if_neg hc], Nat.lt_succ_of_lt hlt, ?_, hfirst⟩
        intro j hj
        rcases Nat.lt_succ_iff_lt_or_eq.mp hj with h | h
        · exact hmin j h
        · subst h; exact le_of_not_lt hc

theorem zoneOf_spec (zg : ZoneGeo) (n : Nat) (p : Coord) (hn : 0 < n) :
    ∃ i, zoneOf zg n p = some i ∧ i < n ∧
      ((zg.contains i p = true ∧ ∀ j, j < i → zg.contains j p = false) ∨
       ((∀ j, j < n → zg.contains j p = false) ∧
        (∀ j, j < n → zg.boundaryDist i p ≤ zg.boundaryDist j p) ∧
        ∀ j, j < i → zg.boundaryDist i p < zg.boundaryDist j p)) := by
  cases hfc : firstContainingZone zg n p with
  | some i =>
    obtain ⟨hlt, hct, hprev⟩ := firstContaining_some_spec zg n p i hfc
    exact ⟨i, by rw [zoneOf, hfc], hlt, Or.inl ⟨hct, hprev⟩⟩
  | none =>
    obtain ⟨i, hmi, hlt, hmin, hfirst⟩ :=
      minIdxRange_spec (fun j => zg.boundaryDist j p) n hn
    exact ⟨i, by rw [zoneOf, hfc]; exact hmi, hlt,
      Or.inr ⟨firstContaining_none_spec zg n p hfc, hmin, hfirst⟩⟩

theorem bestStop_min (hav : DistFn) (loc : Coord) :
    ∀ (l : List (Coord × Nat)) (d : ℚ),
      (bestStop hav loc l d).1 ≤ d ∧
      ∀ s ∈ l, (bestStop hav loc l d).1 ≤ hav loc s.1 := by
  intro l
  induction l with
  | nil => intro d; exact ⟨le_refl d, by intro s hs; cases hs⟩
  | cons s rest ih =>
    intro d
    by_cases hlt : hav loc s.1 < d
    · have hfst : (bestStop hav loc (s :: rest) d).1 =
          (bestStop hav loc rest (hav loc s.1)).1 := by
        rw [bestStop, if_pos hlt]
        rcases hb : bestStop hav loc rest (hav loc s.1) with ⟨bd, ob⟩
        cases ob <;> simp
      obtain ⟨h1, h2⟩ := ih (hav loc s.1)
      refine ⟨?_, ?_⟩
      · rw [hfst]; exact le_of_lt (lt_of_le_of_lt h1 hlt)
      · intro t ht
        rcases List.mem_cons.mp ht with h | h
        · rw [hfst, h]; exact h1
        · rw [hfst]; exact h2 t h
    · have hfst : bestStop hav loc (s :: rest) d = bestStop hav loc rest d := by
        rw [bestStop, if_neg hlt]
      obtain ⟨h1, h2⟩ := ih d
      refine ⟨by rw [hfst]; exact h1, ?_⟩
      intro t ht
      rcases List.mem_cons.mp ht with h | h
      · rw [hfst, h]; exact le_trans h1 (le_of_not_lt hlt)
      · rw [hfst]; exact h2 t h

theorem bestStop_stall (hav : DistFn) (loc : Coord) :
    ∀ (l : List (Coord × Nat)) (d : ℚ),
      (∀ s ∈ l, ¬hav loc s.1 < d) → bestStop hav loc l d = (d, none) := by
  intro l
  induction l with
  | nil => intro d _; rfl
  | cons s rest ih =>
    intro d h
    rw [bestStop, if_neg (h s (List.mem_cons_self s rest))]
    exact ih d (fun t ht => h t (List.mem_cons_of_mem s ht))

theorem scheduleMove_moved_none (hav : DistFn) (snap : List (Coord × Nat))
    (maxWalk : ℚ) (j i : Nat) (e : REmp) (m : Nat × Coord × ℚ)
    (h : scheduleMove hav snap maxWalk j e = some m) :
    scheduleMove hav snap maxWalk i (movedRec e m) = none := by
  rw [scheduleMove] at h
  rcases hp : e.pickup_point with _ | p
  · rw [hp] at h; cases h
  · rw [hp] at h
    simp only at h
    split at h
    · cases h
    · rcases hb : bestStop hav e.loc snap (currentWalk hav e p) with ⟨bd, ob⟩
      rw [hb] at h
      cases ob with
      | none => cases h
      | some b =>
        simp only at h
        split at h
        · have hm : m = (b.2, b.1, bd) := (Option.some.inj h).symm
          have hmin := (bestStop_min hav e.loc snap (currentWalk hav e p)).2
          rw [hb] at hmin
          have hstall : bestStop hav e.loc snap bd = (bd, none) :=
            bestStop_stall hav e.loc snap bd
              (fun s hs => not_lt.mpr (hmin s hs))
          rw [scheduleMove]
          have hpp : (movedRec e m).pickup_point = some m.2.1 := rfl
          rw [hpp]
          have hcw : currentWalk hav (movedRec e m) m.2.1 = m.2.2 := rfl
          simp only [hcw]
          split
          · rfl
          · have hloc : (movedRec e m).loc = e.loc := rfl
            rw [hloc]
            have hm2 : m.2.2 = bd := by rw [hm]
            rw [hm2, hstall]
        · cases h

theorem foldl_applyMove_emp (i : Nat) :
    ∀ (moves : List (Nat × Nat × Coord × ℚ)) (s : PState) (x : Nat),
      ((∀ m, (x, m) ∉ moves) → (moves.foldl (applyMove i) s).emp x = s.emp x) ∧
      (∀ m, (x, m) ∈ moves → (∀ m', (x, m') ∈ moves → m' = m) →
        (moves.foldl (applyMove i) s).emp x = movedRec (s.emp x) m) := by
  intro moves
  induction moves with
  | nil =>
    intro s x
    exact ⟨fun _ => rfl, fun m hm _ => absurd hm (List.not_mem_nil (x, m))⟩
  | cons mv rest ih =>
    intro s x
    constructor
    · intro hno
      have hx : mv.1 ≠ x := by
        intro hh
        exact hno mv.2 (by rw [← hh]; exact List.mem_cons_self mv rest)
      have hemp : (applyMove i s mv).emp x = s.emp x := by
        rw [applyMove]
        simp only
        rw [if_neg (fun hh => hx hh.symm)]
      rw [List.foldl_cons, (ih (applyMove i s mv) x).1
        (fun m hm => hno m (List.mem_cons_of_mem mv hm)), hemp]
    · intro m hm hfun
      have hstep : mv.1 = x → (applyMove i s mv).emp x = movedRec (s.emp x) mv.2 := by
        intro hh
        rw [applyMove]
        simp only
        rw [if_pos hh.symm]
        rfl
      rcases List.mem_cons.mp hm with heq | hmem
      · have hx : mv.1 = x := by rw [← heq]
        have hm2 : mv.2 = m := by rw [← heq]
        by_cases hr : ∃ m', (x, m') ∈ rest
        · obtain ⟨m', hm'⟩ := hr
          have : m' = m := hfun m' (List.mem_cons_of_mem mv hm')
          subst this
          have := (ih (applyMove i s mv) x).2 m' hm'
            (fun m'' hm'' => hfun m'' (List.mem_cons_of_mem mv hm''))
          rw [List.foldl_cons, this, hstep hx, hm2]
          rfl
        · push_neg at hr
          rw [List.foldl_cons, (ih (applyMove i s mv) x).1 hr, hstep hx, hm2]
      · by_cases hx : mv.1 = x
        · have hm2 : mv.2 = m := by
            apply hfun
            rw [← hx]
            exact List.mem_cons_self mv rest
          have := (ih (applyMove i s mv) x).2 m hmem
            (fun m'' hm'' => hfun m'' (List.mem_cons_of_mem mv hm''))
          rw [List.foldl_cons, this, hstep hx, hm2]
          rfl
        · have hemp : (applyMove i s mv).emp x = s.emp x := by
            rw [applyMove]
            simp only
            rw [if_neg (fun hh => hx hh.symm)]
          have := (ih (applyMove i s mv) x).2 m hmem
            (fun m'' hm'' => hfun m'' (List.mem_cons_of_mem mv hm''))
          rw [List.foldl_cons, this, hemp]

theorem applyMove_cluster_id (i : Nat) (s : PState) (mv : Nat × Nat × Coord × ℚ) :
    ((applyMove i s mv).clusters).map RCluster.id = s.clusters.map RCluster.id := by
  rw [applyMove]
  simp only
  rw [List.map_map]
  apply List.map_congr_left
  intro c _
  simp only [Function.comp]
  split
  · rfl
  · split <;> rfl

theorem foldl_applyMove_map_id (i : Nat) :
    ∀ (moves : List (Nat × Nat × Coord × ℚ)) (s : PState),
      ((moves.foldl (applyMove i) s).clusters).map RCluster.id =
        s.clusters.map RCluster.id := by
  intro moves
  induction moves with
  | nil => intro s; rfl
  | cons mv rest ih =>
    intro s
    rw [List.foldl_cons, ih (applyMove i s mv), applyMove_cluster_id]

theorem foldl_applyMove_members (i : Nat) :
    ∀ (moves : List (Nat × Nat × Coord × ℚ)) (s : PState) (k : Nat) (c : RCluster),
      s.clusters.get? k = some c → c.id ≠ i →
      (moves.foldl (applyMove i) s).clusters.get? k =
        some { c with members := c.members ++
          ((moves.filter (fun mv => mv.2.1 = c.id)).map (fun mv => mv.1)) } := by
  intro moves
  induction moves with
  | nil =>
    intro s k c hk _
    simpa using hk
  | cons mv rest ih =>
    intro s k c hk hci
    have hk' : (applyMove i s mv).clusters.get? k =
        some (if c.id = i then { c with members := c.members.erase mv.1 }
          else if c.id = mv.2.1 then { c with members := c.members ++ [mv.1] }
          else c) := by
      rw [applyMove]
      simp only
      rw [List.get?_map, hk]
      rfl
    rw [if_neg hci] at hk'
    by_cases hdest : c.id = mv.2.1
    · rw [if_pos hdest] at hk'
      have := ih (applyMove i s mv) k _ hk' hci
      rw [List.foldl_cons, this]
      have hfil : (mv :: rest).filter (fun mv' => mv'.2.1 = c.id) =
          mv :: rest.filter (fun mv' => mv'.2.1 = c.id) := by
        rw [List.filter_cons_of_pos]
        simp [hdest]
      rw [hfil]
      simp [List.append_assoc]
    · rw [if_neg hdest] at hk'
      have := ih (applyMove i s mv) k c hk' hci
      rw [List.foldl_cons, this]
      have hfil : (mv :: rest).filter (fun mv' => mv'.2.1 = c.id) =
          rest.filter (fun mv' => mv'.2.1 = c.id) := by
        rw [List.filter_cons_of_neg]
        simp
        exact fun hh => hdest hh.symm
      rw [hfil]

theorem find?_eq_of_unique {α : Type} (l : List α) (p : α → Bool) :
    ∀ (k : Nat) (c : α), l.get? k = some c → p c = true →
    (∀ j, j < k → ∀ b, l.get? j = some b → p b = false) →
    l.find? p = some c := by
  induction l with
  | nil => intro k c hk; cases hk
  | cons a t ih =>
    intro k c hk hpc hprev
    cases k with
    | zero =>
      have ha : a = c := Option.some.inj hk
      subst ha
      rw [List.find?_cons_of_pos _ hpc]
    | succ k' =>
      have hpa : p a = false := hprev 0 (Nat.succ_pos k') a rfl
      rw [List.find?_cons_of_neg _ (by simp [hpa])]
      exact ih k' c hk hpc (fun j hj b hb => hprev (j + 1) (by omega) b hb)

theorem initClusterOf_eq (cs : List RCluster)
    (hnd : (cs.flatMap RCluster.members).Nodup) :
    ∀ c ∈ cs, ∀ x ∈ c.members, initClusterOf cs x = some c.id := by
  induction cs with
  | nil => intro c hc; cases hc
  | cons c1 rest ih =>
    intro c hc x hx
    rw [List.flatMap_cons] at hnd
    have hsplit := List.nodup_append.mp hnd
    rcases List.mem_cons.mp hc with rfl | hc'
    · rw [initClusterOf, List.find?_cons_of_pos _ (by simpa using hx)]
      rfl
    · have hxnot : x ∉ c1.members := by
        intro hx1
        exact hsplit.2.2 hx1 (List.mem_flatMap.mpr ⟨c, hc', hx⟩)
      have hstep : initClusterOf (c1 :: rest) x = initClusterOf rest x := by
        rw [initClusterOf, initClusterOf,
          List.find?_cons_of_neg _ (by simpa using hxnot)]
      rw [hstep]
      exact ih hsplit.2.1 c hc' x hx

theorem initClusterOf_mem_ids (cs : List RCluster) (x j : Nat)
    (h : initClusterOf cs x = some j) : j ∈ cs.map RCluster.id := by
  rw [initClusterOf] at h
  rcases hf : cs.find? (fun c => x ∈ c.members) with _ | c
  · rw [hf] at h; cases h
  · rw [hf] at h
    have hc : c.id = j := Option.some.inj h
    exact hc ▸ List.mem_map_of_mem _ (List.mem_of_find?_eq_some hf)

theorem initClusterOf_mem_members (cs : List RCluster) (x j : Nat)
    (h : initClusterOf cs x = some j) :
    ∃ c ∈ cs, c.id = j ∧ x ∈ c.members := by
  rw [initClusterOf] at h
  rcases hf : cs.find? (fun c => x ∈ c.members) with _ | c
  · rw [hf] at h; cases h
  · rw [hf] at h
    refine ⟨c, List.mem_of_find?_eq_some hf, Option.some.inj h, ?_⟩
    have := List.find?_some hf
    simpa using this

theorem eq_of_nodup_map_id (cs : List RCluster)
    (hnd : (cs.map RCluster.id).Nodup) :
    ∀ c ∈ cs, ∀ c' ∈ cs, c.id = c'.id → c = c' := by
  induction cs with
  | nil => intro c hc; cases hc
  | cons a t ih =>
    intro c hc c' hc' hid
    rw [List.map_cons, List.nodup_cons] at hnd
    rcases List.mem_cons.mp hc with rfl | hc2 <;>
      rcases List.mem_cons.mp hc' with rfl | hc2'
    · rfl
    · exact absurd (List.mem_map.mpr ⟨c', hc2', hid.symm⟩) hnd.1
    · exact absurd (List.mem_map.mpr ⟨c, hc2, hid⟩) hnd.1
    · exact ih hnd.2 c hc2 c' hc2' hid

theorem mem_moves_iff (sched : Nat → Option (Nat × Coord × ℚ)) :
    ∀ (exam : List Nat) (x : Nat) (m : Nat × Coord × ℚ),
      ((x, m) ∈ exam.filterMap
        (fun eid => (sched eid).map (fun r => (eid, r)))) ↔
      x ∈ exam ∧ sched x = some m := by
  intro exam x m
  constructor
  · intro h
    obtain ⟨eid, heid, hmap⟩ := List.mem_filterMap.mp h
    rcases Option.map_eq_some'.mp hmap with ⟨r, hr, heq⟩
    have h1 : eid = x := congrArg Prod.fst heq
    have h2 : r = m := congrArg Prod.snd heq
    exact ⟨h1 ▸ heid, by rw [← h1, hr, h2]⟩
  · rintro ⟨hx, hs⟩
    exact List.mem_filterMap.mpr ⟨x, hx, by rw [hs]; rfl⟩

theorem reassignTrace_fst (hav : DistFn) (snap : List (Coord × Nat))
    (maxWalk : ℚ) :
    ∀ (order : List Nat) (s : PState) (tr : List (Nat × List Nat)),
      (order.foldl (fun acc cid =>
        let r := scanCluster hav snap maxWalk acc.1 cid
        (r.1, acc.2 ++ [(cid, r.2)])) (s, tr)).1 =
      order.foldl (fun stM cid => (scanCluster hav snap maxWalk stM cid).1) s := by
  intro order
  induction order with
  | nil => intro s tr; rfl
  | cons cid rest ih =>
    intro s tr
    rw [List.foldl_cons, List.foldl_cons]
    exact ih _ _

theorem midEmpSpec_nil (hav : DistFn) (maxWalk : ℚ) (st : PState) (x : Nat) :
    midEmpSpec hav maxWalk st [] x = st.emp x := by
  cases hinit : initClusterOf st.clusters x <;> simp [midEmpSpec, hinit]

theorem reassignInv_nil (hav : DistFn) (maxWalk : ℚ) (st : PState) :
    ReassignInv hav maxWalk st [] st := by
  refine ⟨fun x => (midEmpSpec_nil hav maxWalk st x).symm, rfl, ?_⟩
  intro k c₀ c h0 h1 _
  have hc : c₀ = c := Option.some.inj (h0.symm.trans h1)
  subst hc
  exact ⟨[], by simp, by intro x hx; cases hx⟩

theorem scan_step_inv (hav : DistFn) (maxWalk : ℚ) (st : PState)
    (hwf : WFState st) (p : List Nat) (stM : PState) (cid : Nat)
    (hin : cid ∈ st.clusters.map RCluster.id) (hnotp : cid ∉ p)
    (hinv : ReassignInv hav maxWalk st p stM) :
    ReassignInv hav maxWalk st (p ++ [cid])
      ((scanCluster hav (snapshotOf st.clusters) maxWalk stM cid).1) := by
  obtain ⟨hemp, hids, hget⟩ := hinv
  obtain ⟨c₀, hc₀mem, hc₀id⟩ := List.mem_map.mp hin
  obtain ⟨k, hk⟩ := List.mem_iff_get?.mp hc₀mem
  have hlen : stM.clusters.length = st.clusters.length := by
    have := congrArg List.length hids
    simpa using this
  have hklt : k < st.clusters.length := by
    by_contra hh
    rw [List.get?_eq_none.mpr (le_of_not_lt hh)] at hk
    cases hk
  obtain ⟨c, hck⟩ : ∃ c, stM.clusters.get? k = some c := by
    cases hc : stM.clusters.get? k with
    | none =>
      rw [List.get?_eq_none] at hc
      omega
    | some c => exact ⟨c, rfl⟩
  have hcid : c.id = cid := by
    have h1 : (stM.clusters.map RCluster.id).get? k = some c.id := by
      rw [List.get?_map, hck]; rfl
    have h2 : (st.clusters.map RCluster.id).get? k = some c₀.id := by
      rw [List.get?_map, hk]; rfl
    rw [hids, h2] at h1
    exact (Option.some.inj h1).symm.trans hc₀id
  have hfind : stM.clusters.find? (fun cc => cc.id = cid) = some c := by
    apply find?_eq_of_unique _ _ k c hck (by simp [hcid])
    intro j hj b hb
    simp only [decide_eq_false_iff_not]
    intro hbid
    have hbj : (stM.clusters.map RCluster.id).get? j = some cid := by
      rw [List.get?_map, hb]; simp [hbid]
    have hbk : (stM.clusters.map RCluster.id).get? k = some cid := by
      rw [List.get?_map, hck]; simp [hcid]
    rw [hids] at hbj hbk
    have hjk : j = k := by
      apply List.get?_inj ?_ hwf.1 (hbj.trans hbk.symm)
      rw [List.length_map]
      omega
    omega
  have hstM : (scanCluster hav (snapshotOf st.clusters) maxWalk stM cid).1 =
      (List.filterMap (fun eid =>
        (scheduleMove hav (snapshotOf st.clusters) maxWalk cid
          (stM.emp eid)).map (fun r => (eid, r)))
        (activeMembers stM c)).foldl (applyMove cid) stM := by
    simp only [scanCluster, hfind]
  obtain ⟨extra, hcmem, hextra⟩ := hget k c₀ c hk hck (by rw [hc₀id]; exact hnotp)
  have horig : ∀ x ∈ c₀.members, initClusterOf st.clusters x = some cid := by
    intro x hx
    rw [← hc₀id]
    exact initClusterOf_eq st.clusters hwf.2 c₀ hc₀mem x hx
  have hempOrig : ∀ x ∈ c₀.members, stM.emp x = st.emp x := by
    intro x hx
    rw [hemp x]
    simp only [midEmpSpec, horig x hx]
    rw [if_neg (fun hh => hnotp hh.1)]
  have hextraMoved : ∀ x ∈ extra, ∃ j m, initClusterOf st.clusters x = some j ∧
      j ∈ p ∧ ¬(st.emp x).excluded ∧
      scheduleMove hav (snapshotOf st.clusters) maxWalk j (st.emp x) = some m ∧
      m.1 = cid ∧ stM.emp x = movedRec (st.emp x) m := by
    intro x hx
    obtain ⟨j, m, hj, hjp, hact, hsched, hm1⟩ := hextra x hx
    refine ⟨j, m, hj, hjp, hact, hsched, hm1.trans hc₀id, ?_⟩
    rw [hemp x]
    simp only [midEmpSpec, hj]
    rw [if_pos ⟨hjp, hact⟩]
    simp only [hsched]
  have hextraNone : ∀ x ∈ extra,
      scheduleMove hav (snapshotOf st.clusters) maxWalk cid (stM.emp x) =
        none := by
    intro x hx
    obtain ⟨j, m, _, _, _, hsched, _, hempx⟩ := hextraMoved x hx
    rw [hempx]
    exact scheduleMove_moved_none hav _ maxWalk j cid (st.emp x) m hsched
  have hmovesMem : ∀ x m, ((x, m) ∈ List.filterMap (fun eid =>
      (scheduleMove hav (snapshotOf st.clusters) maxWalk cid
        (stM.emp eid)).map (fun r => (eid, r))) (activeMembers stM c)) ↔
      x ∈ activeMembers stM c ∧
      scheduleMove hav (snapshotOf st.clusters) maxWalk cid (stM.emp x) =
        some m := fun x m =>
    mem_moves_iff (fun eid => scheduleMove hav (snapshotOf st.clusters)
      maxWalk cid (stM.emp eid)) (activeMembers stM c) x m
  have hmovesSpec : ∀ x m, ((x, m) ∈ List.filterMap (fun eid =>
      (scheduleMove hav (snapshotOf st.clusters) maxWalk cid
        (stM.emp eid)).map (fun r => (eid, r))) (activeMembers stM c)) →
      x ∈ c₀.members ∧ initClusterOf st.clusters x = some cid ∧
      ¬(st.emp x).excluded ∧ stM.emp x = st.emp x ∧
      scheduleMove hav (snapshotOf st.clusters) maxWalk cid (st.emp x) =
        some m := by
    intro x m hm
    obtain ⟨hx, hsched⟩ := (hmovesMem x m).mp hm
    rw [activeMembers, hcmem] at hx
    obtain ⟨hxmem, hxact⟩ := List.mem_filter.mp hx
    rcases List.mem_append.mp hxmem with hxc | hxe
    · have he := hempOrig x hxc
      refine ⟨hxc, horig x hxc, ?_, he, by rw [← he]; exact hsched⟩
      rw [he] at hxact
      simpa using hxact
    · rw [hextraNone x hxe] at hsched
      cases hsched
  rw [hstM]
  unfold ReassignInv
  refine ⟨?_, ?_, ?_⟩
  · intro x
    by_cases hxm : ∃ m, ((x, m) ∈ List.filterMap (fun eid =>
        (scheduleMove hav (snapshotOf st.clusters) maxWalk cid
          (stM.emp eid)).map (fun r => (eid, r))) (activeMembers stM c))
    · obtain ⟨m, hm⟩ := hxm
      obtain ⟨hxc, hinit, hact, hempx, hsched⟩ := hmovesSpec x m hm
      have hfun : ∀ mm, ((x, mm) ∈ List.filterMap (fun eid =>
          (scheduleMove hav (snapshotOf st.clusters) maxWalk cid
            (stM.emp eid)).map (fun r => (eid, r))) (activeMembers stM c)) →
          mm = m := by
        intro mm hmm
        obtain ⟨_, hs1⟩ := (hmovesMem x mm).mp hmm
        obtain ⟨_, hs2⟩ := (hmovesMem x m).mp hm
        exact Option.some.inj (hs1.symm.trans hs2)
      rw [(foldl_applyMove_emp cid _ stM x).2 m hm hfun, hempx]
      simp only [midEmpSpec, hinit]
      rw [if_pos ⟨List.mem_append_right p (by simp), hact⟩]
      simp only [hsched]
    · push_neg at hxm
      rw [(foldl_applyMove_emp cid _ stM x).1 hxm, hemp x]
      cases hinit : initClusterOf st.clusters x with
      | none => simp only [midEmpSpec, hinit]
      | some j =>
        by_cases hj : j = cid
        · subst hj
          simp only [midEmpSpec, hinit]
          rw [if_neg (fun hh => hnotp hh.1)]
          by_cases hact : (st.emp x).excluded
          · rw [if_neg (fun hh => hh.2 hact)]
          · rw [if_pos ⟨by simp, hact⟩]
            cases hsched : scheduleMove hav (snapshotOf st.clusters) maxWalk j
                (st.emp x) with
            | none => rfl
            | some m =>
              exfalso
              obtain ⟨cc, hccmem, hccid, hxmem⟩ :=
                initClusterOf_mem_members _ x j hinit
              have hccc₀ : cc = c₀ := eq_of_nodup_map_id st.clusters hwf.1
                cc hccmem c₀ hc₀mem (by rw [hccid, hc₀id])
              have hxc₀ : x ∈ c₀.members := hccc₀ ▸ hxmem
              have hempx : stM.emp x = st.emp x := hempOrig x hxc₀
              apply hxm m
              apply (hmovesMem x m).mpr
              refine ⟨?_, by rw [hempx]; exact hsched⟩
              rw [activeMembers]
              apply List.mem_filter.mpr
              refine ⟨by rw [hcmem]; exact List.mem_append_left extra hxc₀, ?_⟩
              rw [hempx]
              simpa using hact
        · simp only [midEmpSpec, hinit]
          exact if_congr (by simp [List.mem_append, hj]) rfl rfl
  · rw [foldl_applyMove_map_id]
    exact hids
  · intro k1 d₀ d hk0 hk1 hnp
    have hne : d₀.id ≠ cid := by
      intro hh
      exact hnp (by rw [hh]; exact List.mem_append_right p (by simp))
    have hnpOld : d₀.id ∉ p := fun hh => hnp (List.mem_append_left [cid] hh)
    have hk1lt : k1 < st.clusters.length := by
      by_contra hh
      rw [List.get?_eq_none.mpr (le_of_not_lt hh)] at hk0
      cases hk0
    obtain ⟨dOld, hdOldk⟩ : ∃ dOld, stM.clusters.get? k1 = some dOld := by
      cases hc : stM.clusters.get? k1 with
      | none =>
        rw [List.get?_eq_none] at hc
        omega
      | some dOld => exact ⟨dOld, rfl⟩
    have hdOldid : dOld.id = d₀.id := by
      have h1 : (stM.clusters.map RCluster.id).get? k1 = some dOld.id := by
        rw [List.get?_map, hdOldk]; rfl
      have h2 : (st.clusters.map RCluster.id).get? k1 = some d₀.id := by
        rw [List.get?_map, hk0]; rfl
      rw [hids, h2] at h1
      exact (Option.some.inj h1).symm
    obtain ⟨extr, hdOldmem, hextr⟩ := hget k1 d₀ dOld hk0 hdOldk hnpOld
    have hnew := foldl_applyMove_members cid (List.filterMap (fun eid =>
      (scheduleMove hav (snapshotOf st.clusters) maxWalk cid
        (stM.emp eid)).map (fun r => (eid, r))) (activeMembers stM c))
      stM k1 dOld hdOldk (by rw [hdOldid]; exact hne)
    rw [hnew] at hk1
    have hd : d = { dOld with members := dOld.members ++
        (((List.filterMap (fun eid =>
          (scheduleMove hav (snapshotOf st.clusters) maxWalk cid
            (stM.emp eid)).map (fun r => (eid, r))) (activeMembers stM c)).filter
          (fun mv => mv.2.1 = dOld.id)).map (fun mv => mv.1)) } :=
      (Option.some.inj hk1).symm
    refine ⟨extr ++ (((List.filterMap (fun eid =>
        (scheduleMove hav (snapshotOf st.clusters) maxWalk cid
          (stM.emp eid)).map (fun r => (eid, r))) (activeMembers stM c)).filter
        (fun mv => mv.2.1 = dOld.id)).map (fun mv => mv.1)), ?_, ?_⟩
    · rw [hd]
      simp only
      rw [hdOldmem, List.append_assoc]
    · intro x hx
      rcases List.mem_append.mp hx with hxe | hxnew
      · obtain ⟨j, m, hj, hjp, hact, hsched, hm1⟩ := hextr x hxe
        exact ⟨j, m, hj, List.mem_append_left [cid] hjp, hact, hsched, hm1⟩
      · obtain ⟨mv, hmv, hmveq⟩ := List.mem_map.mp hxnew
        have hmvfil := List.mem_filter.mp hmv
        obtain ⟨hxc, hinit, hact, hempx, hsched⟩ :=
          hmovesSpec mv.1 mv.2 hmvfil.1
        have hdest : mv.2.1 = d₀.id := by
          have hh := hmvfil.2
          simp only [decide_eq_true_eq] at hh
          exact hh.trans hdOldid
        exact ⟨cid, mv.2, hmveq ▸ hinit, List.mem_append_right p (by simp),
          hmveq ▸ hact, hmveq ▸ hsched, hdest⟩

theorem scan_fold_inv (hav : DistFn) (maxWalk : ℚ) (st : PState)
    (hwf : WFState st) :
    ∀ (rest p : List Nat) (stM : PState),
      (∀ cc ∈ rest, cc ∈ st.clusters.map RCluster.id) →
      (∀ cc ∈ rest, cc ∉ p) → rest.Nodup →
      ReassignInv hav maxWalk st p stM →
      ReassignInv hav maxWalk st (p ++ rest)
        (rest.foldl (fun s cid =>
          (scanCluster hav (snapshotOf st.clusters) maxWalk s cid).1) stM) := by
  intro rest
  induction rest with
  | nil =>
    intro p stM _ _ _ hinv
    simpa using hinv
  | cons cid rest ih =>
    intro p stM hsub hdisj hnd hinv
    rw [List.foldl_cons]
    have hstep := scan_step_inv hav maxWalk st hwf p stM cid
      (hsub cid (List.mem_cons_self cid rest))
      (hdisj cid (List.mem_cons_self cid rest)) hinv
    have hnd2 := List.nodup_cons.mp hnd
    have hres := ih (p ++ [cid]) _
      (fun cc hc => hsub cc (List.mem_cons_of_mem cid hc))
      (fun cc hc hmem => by
        rcases List.mem_append.mp hmem with h | h
        · exact hdisj cc (List.mem_cons_of_mem cid hc) h
        · have hcc : cc = cid := by simpa using h
          exact hnd2.1 (hcc ▸ hc))
      hnd2.2 hstep
    simpa [List.append_assoc] using hres

theorem midEmpSpec_full (hav : DistFn) (maxWalk : ℚ) (st : PState)
    (order : List Nat) (hsnap : ¬snapshotOf st.clusters = [])
    (hcover : ∀ j, j ∈ st.clusters.map RCluster.id → j ∈ order) (x : Nat) :
    midEmpSpec hav maxWalk st order x = finalEmpSpec hav maxWalk st x := by
  simp only [finalEmpSpec]
  rw [if_neg hsnap]
  cases hinit : initClusterOf st.clusters x with
  | none => simp only [midEmpSpec, hinit]
  | some j =>
    simp only [midEmpSpec, hinit]
    have hjo : j ∈ order := hcover j (initClusterOf_mem_ids st.clusters x j hinit)
    by_cases hact : (st.emp x).excluded
    · rw [if_neg (fun hh => hh.2 hact), if_pos hact]
    · rw [if_pos ⟨hjo, hact⟩, if_neg hact]
      cases hsched : scheduleMove hav (snapshotOf st.clusters) maxWalk j
          (st.emp x) with
      | none => simp only [hsched]
      | some m => simp only [hsched]; rfl

theorem reassign_eq_foldl (hav : DistFn) (maxWalk : ℚ) (st : PState)
    (order : List Nat) (hsnap : ¬snapshotOf st.clusters = []) :
    reassign_employees_to_closer_routes hav maxWalk st order =
      order.foldl (fun s cid =>
        (scanCluster hav (snapshotOf st.clusters) maxWalk s cid).1) st := by
  show (if snapshotOf st.clusters = [] then (st, ([] : List (Nat × List Nat)))
    else order.foldl (fun acc cid =>
      let r := scanCluster hav (snapshotOf st.clusters) maxWalk acc.1 cid
      (r.1, acc.2 ++ [(cid, r.2)])) (st, [])).1 = _
  rw [if_neg hsnap]
  exact reassignTrace_fst hav (snapshotOf st.clusters) maxWalk order st []

theorem reassign_eq_self (hav : DistFn) (maxWalk : ℚ) (st : PState)
    (order : List Nat) (hsnap : snapshotOf st.clusters = []) :
    reassign_employees_to_closer_routes hav maxWalk st order = st := by
  show (if snapshotOf st.clusters = [] then (st, ([] : List (Nat × List Nat)))
    else order.foldl (fun acc cid =>
      let r := scanCluster hav (snapshotOf st.clusters) maxWalk acc.1 cid
      (r.1, acc.2 ++ [(cid, r.2)])) (st, [])).1 = st
  rw [if_pos hsnap]

/-- C2 (amended): the reassigner applies each cluster's scheduled moves as
soon as that cluster's scan ends, and a moved employee IS re-examined when
its destination cluster is scanned later in the same pass — but the
re-examination is vacuous: the moved employee sits at the snapshot-global
minimum distance, so no further move is ever scheduled for it, and the
final per-employee state (cluster id, pickup point, walking distance) is
the order-free per-employee decision `finalEmpSpec`, identical for every
visitation order of the clusters. -/
theorem reassigner_order_independent (hav : DistFn) (maxWalk : ℚ)
    (st : PState) (order : List Nat) (hwf : WFState st)
    (hperm : order.Perm (st.clusters.map RCluster.id)) (eid : Nat) :
    (reassign_employees_to_closer_routes hav maxWalk st order).emp eid =
      finalEmpSpec hav maxWalk st eid := by
  by_cases hsnap : snapshotOf st.clusters = []
  · rw [reassign_eq_self hav maxWalk st order hsnap]
    simp only [finalEmpSpec]
    rw [if_pos hsnap]
  · rw [reassign_eq_foldl hav maxWalk st order hsnap]
    have hfold := scan_fold_inv hav maxWalk st hwf order [] st
      (fun cc hc => (hperm.mem_iff).mp hc)
      (fun cc _ hmem => by cases hmem)
      (hperm.nodup_iff.mpr hwf.1)
      (reassignInv_nil hav maxWalk st)
    have hx := hfold.1 eid
    rw [List.nil_append] at hx
    rw [hx]
    exact midEmpSpec_full hav maxWalk st order hsnap
      (fun j hj => (hperm.mem_iff).mpr hj) eid

/-- C2 (witness): the Scenario C state scanned in the reversed order
`[1, 0]` still gives employee 1 its order-free final state. -/
theorem reassigner_order_independent_witness :
    WFState stC3 ∧ ([1, 0].Perm (stC3.clusters.map RCluster.id)) ∧
    (reassign_employees_to_closer_routes havC3 500 stC3 [1, 0]).emp 1 =
      finalEmpSpec havC3 500 stC3 1 :=
  ⟨⟨by decide, by decide⟩, by decide,
    reassigner_order_independent havC3 500 stC3 [1, 0] ⟨by decide, by decide⟩
      (by decide) 1⟩

/-- C2 (counterexample): with the source's own visitation order, employee 1
is moved into cluster 1 while scanning cluster 0 — before the scan of every
cluster completes — and the pass then examines it again as a member of its
destination cluster 1 (the second trace entry), refuting "apply all
scheduled moves only after the scan of every cluster completes, so a moved
employee is never re-examined as a member of its destination cluster". -/
theorem reassigner_applies_moves_before_scan_completes :
    (reassignTrace havC3 500 stC3 [0, 1]).2 = [(0, [1, 2]), (1, [1])] ∧
    ((reassignTrace havC3 500 stC3 [0, 1]).1.emp 1).cluster_id = 1 := by
  constructor <;>
    norm_num [reassignTrace, snapshotOf, scanCluster, activeMembers,
      scheduleMove, currentWalk, bestStop, applyMove, stC3, empC3, havC3,
      List.foldl, List.filterMap, List.find?, List.erase] <;>
    simp +decide

/-- C9: with at least one zone, `assign_employees_to_zones` succeeds and
every employee gets exactly one zone id `i`: the first zone in list order
containing the employee's point, or — when no zone contains it — the first
zone minimizing boundary distance.  The employee (with `zone_id` set)
appears in bucket `i` and in no other bucket, and a zone id occurs in the
returned mapping exactly when some employee is assigned to it (empty zones
are absent). -/
theorem zone_assignment_first_containing_else_nearest
    (zg : ZoneGeo) (n : Nat) (employees : List MEmp) (hn : 0 < n) :
    ∃ res, assign_employees_to_zones zg n employees = some res ∧
      (∀ e ∈ employees, ∃ i, zoneOf zg n e.loc = some i ∧ i < n ∧
        (∃ L, (i, L) ∈ res ∧ { e with zone_id := some i } ∈ L) ∧
        (∀ b ∈ res, { e with zone_id := some b.1 } ∈ b.2 → b.1 = i) ∧
        ((zg.contains i e.loc = true ∧
            ∀ j, j < i → zg.contains j e.loc = false) ∨
         ((∀ j, j < n → zg.contains j e.loc = false) ∧
          (∀ j, j < n → zg.boundaryDist i e.loc ≤ zg.boundaryDist j e.loc) ∧
          ∀ j, j < i → zg.boundaryDist i e.loc < zg.boundaryDist j e.loc))) ∧
      ∀ k, (∃ L, (k, L) ∈ res) ↔ ∃ e ∈ employees, zoneOf zg n e.loc = some k := by
  have hguard : ¬(n = 0 ∧ employees ≠ []) := fun hh => by omega
  refine ⟨_, by rw [assign_employees_to_zones, if_neg hguard], ?_, ?_⟩
  · intro e he
    obtain ⟨i, hzo, hlt, hdisj⟩ := zoneOf_spec zg n e.loc hn
    have hmemL : { e with zone_id := some i } ∈ employees.filterMap (fun e' =>
        if zoneOf zg n e'.loc = some i then some { e' with zone_id := some i }
        else none) :=
      List.mem_filterMap.mpr ⟨e, he, by rw [if_pos hzo]⟩
    refine ⟨i, hzo, hlt, ⟨_, ?_, hmemL⟩, ?_, hdisj⟩
    · refine List.mem_filter.mpr ⟨?_, ?_⟩
      · exact List.mem_map_of_mem _ (List.mem_range.mpr hlt)
      · simpa using List.ne_nil_of_mem hmemL
    · intro b hb hmem
      obtain ⟨k, hk, hbk⟩ := List.mem_map.mp (List.mem_filter.mp hb).1
      subst hbk
      obtain ⟨e', he', hge⟩ := List.mem_filterMap.mp hmem
      by_cases hz : zoneOf zg n e'.loc = some k
      · rw [if_pos hz] at hge
        have hst := Option.some.inj hge
        have hloc0 := congrArg MEmp.loc hst
        have hloc : e'.loc = e.loc := hloc0
        rw [hloc, hzo] at hz
        exact (Option.some.inj hz).symm
      · rw [if_neg hz] at hge
        cases hge
  · intro k
    constructor
    · rintro ⟨L, hL⟩
      obtain ⟨j, _, hjk⟩ := List.mem_map.mp (List.mem_filter.mp hL).1
      have hne : L ≠ [] := by
        have := (List.mem_filter.mp hL).2
        simpa using this
      obtain ⟨hkj, hLj⟩ : j = k ∧ (employees.filterMap (fun e' =>
          if zoneOf zg n e'.loc = some j then some { e' with zone_id := some j }
          else none)) = L := ⟨congrArg Prod.fst hjk, congrArg Prod.snd hjk⟩
      obtain ⟨x, hx⟩ := List.exists_mem_of_ne_nil L hne
      rw [← hLj] at hx
      obtain ⟨e, he, hge⟩ := List.mem_filterMap.mp hx
      by_cases hz : zoneOf zg n e.loc = some j
      · exact ⟨e, he, hkj ▸ hz⟩
      · rw [if_neg hz] at hge
        cases hge
    · rintro ⟨e, he, hz⟩
      obtain ⟨i, hzo, hlt, _⟩ := zoneOf_spec zg n e.loc hn
      have hik : i = k := Option.some.inj (hzo ▸ hz ▸ rfl)
      subst hik
      have hmemL : { e with zone_id := some i } ∈ employees.filterMap (fun e' =>
          if zoneOf zg n e'.loc = some i then some { e' with zone_id := some i }
          else none) :=
        List.mem_filterMap.mpr ⟨e, he, by rw [if_pos hz]⟩
      refine ⟨employees.filterMap (fun e' =>
          if zoneOf zg n e'.loc = some i then some { e' with zone_id := some i }
          else none), List.mem_filter.mpr ⟨?_, ?_⟩⟩
      · exact List.mem_map_of_mem _ (List.mem_range.mpr hlt)
      · simpa using List.ne_nil_of_mem hmemL

/-- C9 (witness): one zone containing the single employee's point. -/
theorem zone_assignment_first_containing_else_nearest_witness :
    0 < 1 ∧ ∃ res,
      assign_employees_to_zones ⟨fun i _ => decide (i = 0), fun _ _ => 0⟩ 1
        [⟨1, (0, 0), false, none, none, none⟩] = some res ∧
      (∀ e ∈ ([⟨1, (0, 0), false, none, none, none⟩] : List MEmp), ∃ i,
        zoneOf ⟨fun i _ => decide (i = 0), fun _ _ => 0⟩ 1 e.loc = some i ∧
        i < 1 ∧
        (∃ L, (i, L) ∈ res ∧ { e with zone_id := some i } ∈ L) ∧
        (∀ b ∈ res, { e with zone_id := some b.1 } ∈ b.2 → b.1 = i) ∧
        ((ZoneGeo.contains ⟨fun i _ => decide (i = 0), fun _ _ => 0⟩ i e.loc =
            true ∧
          ∀ j, j < i →
            ZoneGeo.contains ⟨fun i _ => decide (i = 0), fun _ _ => 0⟩ j e.loc =
              false) ∨
         ((∀ j, j < 1 →
            ZoneGeo.contains ⟨fun i _ => decide (i = 0), fun _ _ => 0⟩ j e.loc =
              false) ∧
          (∀ j, j < 1 →
            ZoneGeo.boundaryDist ⟨fun i _ => decide (i = 0), fun _ _ => 0⟩ i
                e.loc ≤
              ZoneGeo.boundaryDist ⟨fun i _ => decide (i = 0), fun _ _ => 0⟩ j
                e.loc) ∧
          ∀ j, j < i →
            ZoneGeo.boundaryDist ⟨fun i _ => decide (i = 0), fun _ _ => 0⟩ i
                e.loc <
              ZoneGeo.boundaryDist ⟨fun i _ => decide (i = 0), fun _ _ => 0⟩ j
                e.loc))) ∧
      ∀ k, (∃ L, (k, L) ∈ res) ↔
        ∃ e ∈ ([⟨1, (0, 0), false, none, none, none⟩] : List MEmp),
          zoneOf ⟨fun i _ => decide (i = 0), fun _ _ => 0⟩ 1 e.loc = some k :=
  ⟨Nat.one_pos,
    zone_assignment_first_containing_else_nearest
      ⟨fun i _ => decide (i = 0), fun _ _ => 0⟩ 1
      [⟨1, (0, 0), false, none, none, none⟩] Nat.one_pos⟩

/-- C8: given a successful distance-matrix result whose rows match the
candidate list and each contain at least one non-`None` entry,
`match_employees_to_route` leaves excluded employees untouched and assigns
the k-th active employee the candidate at the first index minimizing row k
(`None` entries skipped, ties broken by the first-enumerated candidate),
recording that stop as `pickup_point` and the minimum as
`walking_distance`.  Being an equation about a pure function of the matrix
and the candidate list, the assignment is deterministic. -/
theorem match_assigns_row_argmin (matrix : List (List (Option ℚ)))
    (cands : List Coord) (emps : List MEmp)
    (hrows : ∀ k a, (emps.filter (fun e => !e.excluded)).get? k = some a →
      (matrix.getD k []).length = cands.length ∧
      ∃ j w, (matrix.getD k []).get? j = some (some w)) :
    ((match_employees_to_route matrix cands emps).filter (fun e => e.excluded) =
      emps.filter (fun e => e.excluded)) ∧
    ∀ k a, (emps.filter (fun e => !e.excluded)).get? k = some a →
      ∃ i v, i < cands.length ∧
        (matrix.getD k []).get? i = some (some v) ∧
        (∀ j w, (matrix.getD k []).get? j = some (some w) → v ≤ w) ∧
        (∀ j, j < i → ∀ w, (matrix.getD k []).get? j = some (some w) → v < w) ∧
        ((match_employees_to_route matrix cands emps).filter
            (fun e => !e.excluded)).get? k =
          some { a with pickup_point := some (cands.getD i (0, 0)),
                        walking_distance := some v } := by
  constructor
  · exact (matchGo_spec matrix cands emps 0).1
  · intro k a hk
    obtain ⟨hlen, j0, w0, hw0⟩ := hrows k a hk
    have hspec := (matchGo_spec matrix cands emps 0).2 k a hk
    rcases rowBestAux_none_spec (matrix.getD k []) 0 with
      ⟨_, hnone⟩ | ⟨i, v, hres, hget, hmin, hfirst⟩
    · exact (hnone j0 w0 hw0).elim
    · have hrb : rowBest (matrix.getD (0 + k) []) = some (i, v) := by
        rw [Nat.zero_add]
        show rowBestAux (matrix.getD k []) 0 none = some (i, v)
        rw [hres, Nat.zero_add]
      refine ⟨i, v, ?_, hget, hmin, hfirst, ?_⟩
      · have hi : i < (matrix.getD k []).length := by
          cases hlt : Nat.decLt i (matrix.getD k []).length with
          | isTrue hh => exact hh
          | isFalse hh =>
            rw [List.get?_eq_none.mpr (le_of_not_lt hh)] at hget
            cases hget
        omega
      · show (List.filter (fun e => !e.excluded)
            (matchFromMatrixGo matrix cands emps 0)).get? k = _
        rw [hspec, hrb]

/-- C8 (witness): one active employee, one matrix row `[some 5, some 3]`,
two candidates — the second candidate (distance 3) wins. -/
theorem match_assigns_row_argmin_witness :
    (∀ k a, (([⟨1, (0, 0), false, none, none, none⟩] : List MEmp).filter
        (fun e => !e.excluded)).get? k = some a →
      (([[some 5, some 3]] : List (List (Option ℚ))).getD k []).length =
        ([(0, 0), (1, 1)] : List Coord).length ∧
      ∃ j w, (([[some 5, some 3]] : List (List (Option ℚ))).getD k []).get? j =
        some (some w)) ∧
    ((match_employees_to_route [[some 5, some 3]] [(0, 0), (1, 1)]
        [⟨1, (0, 0), false, none, none, none⟩]).filter (fun e => e.excluded) =
      ([⟨1, (0, 0), false, none, none, none⟩] : List MEmp).filter
        (fun e => e.excluded)) := by
  have hyp : ∀ k a, (([⟨1, (0, 0), false, none, none, none⟩] : List MEmp).filter
      (fun e => !e.excluded)).get? k = some a →
      (([[some 5, some 3]] : List (List (Option ℚ))).getD k []).length =
        ([(0, 0), (1, 1)] : List Coord).length ∧
      ∃ j w, (([[some 5, some 3]] : List (List (Option ℚ))).getD k []).get? j =
        some (some w) := by
    intro k a hk
    match k with
    | 0 => exact ⟨rfl, ⟨0, 5, rfl⟩⟩
    | Nat.succ k' => simp [List.filter] at hk
  exact ⟨hyp, (match_assigns_row_argmin [[some 5, some 3]] [(0, 0), (1, 1)]
    [⟨1, (0, 0), false, none, none, none⟩] hyp).1⟩

/-- C1 (counterexample).  `enforce_capacity_constraints` does not guarantee
the capacity bound: the k-means labels decide the sub-cluster sizes and
nothing rebalances them.  With capacity 2, a cluster of five active
employees is split into `ceil(5/2) = 3` sub-clusters, and a k-means outcome
putting three samples in the first group (the exact 3-means optimum for
three coincident and two distant points) leaves a sub-cluster with 3 > 2
active members. -/
theorem capacity_enforcement_can_exceed_capacity :
    (∀ c ∈ [cFive], c.employees ≠ []) ∧
    enforce_capacity_constraints hav0 km1 [cFive] 2 = some outFive ∧
    ∃ c, c ∈ outFive ∧ 2 < c.activeCount := by
  refine ⟨by decide, by decide, ⟨outFive.getD 0 cFive, by decide, by decide⟩⟩

/-- C1 (amended): `enforce_capacity_constraints` keeps every already-valid
cluster and replaces each over-capacity cluster by `ceil(active/capacity)`
sub-clusters whose active members are the employees k-means labelled to
them; PROVIDED the k-means labelling puts at most `capacity` active members
on each label, every returned cluster has active member count ≤ capacity.
(Without that balance assumption the bound can fail, see the
counterexample.) -/
theorem capacity_enforcement_bound_of_balanced_split (hav : DistFn)
    (km : KMeansFn) (cs : List Cluster) (cap : Nat) (out : List Cluster)
    (h : enforce_capacity_constraints hav km cs cap = some out)
    (hbal : ∀ c ∈ cs, cap < c.activeCount →
      ∀ j, ((km c.activeLocs (ceilDiv c.activeCount cap)).labels.count j) ≤ cap) :
    ∀ c' ∈ out, c'.activeCount ≤ cap := by
  unfold enforce_capacity_constraints at h
  cases hm : (cs.map Cluster.id).max? with
  | none => simp only [hm] at h; simp at h
  | some m =>
    simp only [hm] at h
    exact enforceGo_bound hav km cap cs (m + 1) out h hbal

/-- C1 (witness): four active employees, capacity 2, balanced labels
`[0,1,0,1]` — the two sub-clusters hold 2 active employees each. -/
theorem capacity_enforcement_bound_of_balanced_split_witness :
    (enforce_capacity_constraints hav0 kmBal [cFour] 2 = some outFour ∧
     ∀ c ∈ [cFour], 2 < c.activeCount →
       ∀ j, ((kmBal c.activeLocs (ceilDiv c.activeCount 2)).labels.count j) ≤ 2) ∧
    ∀ c' ∈ outFour, c'.activeCount ≤ 2 := by
  have hbal : ∀ c ∈ [cFour], 2 < c.activeCount →
      ∀ j, ((kmBal c.activeLocs (ceilDiv c.activeCount 2)).labels.count j) ≤ 2 := by
    intro c hc _ j
    rcases List.mem_singleton.mp hc with rfl
    show ([0, 1, 0, 1] : List Nat).count j ≤ 2
    by_cases h0 : j = 0
    · subst h0; decide
    · by_cases h1 : j = 1
      · subst h1; decide
      · have hnot : j ∉ ([0, 1, 0, 1] : List Nat) := by
          simp only [List.mem_cons, List.not_mem_nil, or_false]
          omega
        rw [List.count_eq_zero.mpr hnot]
        omega
  exact ⟨⟨by decide, hbal⟩,
    capacity_enforcement_bound_of_balanced_split hav0 kmBal [cFour] 2 outFour
      (by decide) hbal⟩

/-- C10: `enforce_capacity_constraints` conserves the employee population —
the members of the output clusters are a permutation of the members of the
input clusters (no employee duplicated or dropped; with distinct input
members, each belongs to exactly one output cluster).  Moreover, for every
split (over-capacity) cluster: each excluded member lands in a sub-cluster
of that split whose center is nearest by the distance function among the
split's k-means centers, and each active member paired with label `p.2`
lands in the sub-cluster carrying the k-means center of that label. -/
theorem enforce_capacity_conserves_employees (hav : DistFn) (km : KMeansFn)
    (cs : List Cluster) (cap : Nat) (out : List Cluster)
    (h : enforce_capacity_constraints hav km cs cap = some out) :
    ((out.flatMap Cluster.employees).Perm (cs.flatMap Cluster.employees)) ∧
    ∀ c ∈ cs, cap < c.activeCount →
      (∀ e ∈ c.employees, e.excluded = true →
        ∃ sub, sub ∈ out ∧ e ∈ sub.employees ∧
          sub.parent_cluster_id = some c.id ∧
          ∀ ctr ∈ (km (c.active.map Emp.loc)
              (ceilDiv c.active.length cap)).centers,
            hav e.loc sub.center ≤ hav e.loc ctr) ∧
      (∀ p ∈ c.active.zip (km (c.active.map Emp.loc)
          (ceilDiv c.active.length cap)).labels,
        ∃ sub, sub ∈ out ∧ p.1 ∈ sub.employees ∧
          sub.parent_cluster_id = some c.id ∧
          sub.center = (km (c.active.map Emp.loc)
            (ceilDiv c.active.length cap)).centers.getD p.2 (0, 0)) := by
  unfold enforce_capacity_constraints at h
  cases hm : (cs.map Cluster.id).max? with
  | none => simp only [hm] at h; simp at h
  | some m =>
    simp only [hm] at h
    exact ⟨enforceGo_employees_perm hav km cap cs (m + 1) out h,
      enforceGo_placement hav km cap cs (m + 1) out h⟩

/-- C10 (witness): the five-employee split — all five employees survive into
the output, redistributed across the three sub-clusters. -/
theorem enforce_capacity_conserves_employees_witness :
    enforce_capacity_constraints hav0 km1 [cFive] 2 = some outFive ∧
    ((outFive.flatMap Cluster.employees).Perm
      ([cFive].flatMap Cluster.employees)) :=
  ⟨by decide,
    (enforce_capacity_conserves_employees hav0 km1 [cFive] 2 outFive (by decide)).1⟩

/-- C3: Scenario C of the spec, max walk 500 m.  Employee 1 (recorded walk
800 m, globally nearest snapshot stop 300 m away on cluster 1) is moved to
cluster 1 with pickup point and walking distance updated to that stop;
employee 2 (600 m recorded, best other-cluster stop 550 m — over the limit
and more than 70% of 600 m) is left untouched in cluster 0. -/
theorem reassignment_scenario_C :
    (reassign_employees_to_closer_routes havC3 500 stC3 [0, 1]).emp 1 =
      ⟨(0, 0), false, 1, some (300, 0), some 300⟩ ∧
    (reassign_employees_to_closer_routes havC3 500 stC3 [0, 1]).emp 2 = empC3 2 ∧
    (reassign_employees_to_closer_routes havC3 500 stC3 [0, 1]).clusters.map
      RCluster.members = [[2], [1]] := by
  refine ⟨?_, ?_, ?_⟩ <;>
    norm_num [reassign_employees_to_closer_routes, reassignTrace, snapshotOf,
      scanCluster, activeMembers, scheduleMove, currentWalk, bestStop, applyMove,
      stC3, empC3, havC3, List.foldl, List.filterMap, List.find?, List.erase] <;>
    simp +decide

/-- C4: when every routing-engine call raises and the cache has no entry for
the requested stops, `optimize_cluster_route` on a cluster with a non-empty
stop list still returns a route: not optimized, `distance_km` the haversine
chain sum over consecutive stops divided by 1000, and the cache is left
unchanged (the fallback is never written to it). -/
theorem route_fallback_on_engine_failure (hav : DistFn) (engine : EngineFn)
    (cache : CacheMap) (c : Cluster)
    (hstops : c.stops ≠ [])
    (heng : ∀ pts profile, engine pts profile = .error ())
    (hmiss : cacheGet cache c.stops none = none) :
    (optimize_cluster_route hav engine cache c true).2.2 = cache ∧
    ∃ r, (optimize_cluster_route hav engine cache c true).1 = some r ∧
      r.optimized = false ∧ r.distance_km = chainSum hav c.stops / 1000 := by
  have hreq : requestedStops c true = c.stops := by
    simp [requestedStops, hstops]
  have hopt : optimize_cluster_route hav engine cache c true =
      (some (calculate_stats_from_stops hav { stops := c.stops }),
       { c with route := some (calculate_stats_from_stops hav { stops := c.stops }) },
       cache) := by
    unfold optimize_cluster_route get_route
    rw [hreq]
    simp [hstops, hmiss, heng]
  refine ⟨by rw [hopt], calculate_stats_from_stops hav { stops := c.stops },
    by rw [hopt], ?_, ?_⟩
  · unfold calculate_stats_from_stops
    by_cases h2 : ({ stops := c.stops : MRoute }).stops.length < 2 <;>
      simp [h2]
  · unfold calculate_stats_from_stops
    by_cases h2 : ({ stops := c.stops : MRoute }).stops.length < 2
    · have h2' : c.stops.length < 2 := h2
      have h0 : chainSum hav c.stops = 0 := by
        rcases hs : c.stops with _ | ⟨a, l⟩
        · rfl
        · rcases hl : l with _ | ⟨b, l'⟩
          · rfl
          · rw [hs, hl] at h2'
            exact absurd h2' (by simp)
      simp [if_pos h2, h0]
    · simp [if_neg h2]

/-- C4 (witness): a concrete two-stop cluster, an always-erroring engine and
an empty cache. -/
theorem route_fallback_on_engine_failure_witness :
    cTwoStops.stops ≠ [] ∧ (∀ pts profile, engineErr pts profile = .error ()) ∧
    cacheGet [] cTwoStops.stops none = none ∧
    ((optimize_cluster_route hav0 engineErr [] cTwoStops true).2.2 = [] ∧
     ∃ r, (optimize_cluster_route hav0 engineErr [] cTwoStops true).1 = some r ∧
       r.optimized = false ∧ r.distance_km = chainSum hav0 cTwoStops.stops / 1000) :=
  ⟨by decide, fun _ _ => rfl, rfl,
   route_fallback_on_engine_failure hav0 engineErr [] cTwoStops (by decide)
     (fun _ _ => rfl) rfl⟩

/-- C5 (counterexample).  `_generate_key` hashes only the rounded coordinates
and the time bucket — not the profile — so two `get_route` calls with the
same point list but different profiles SHARE a cache entry: after a
successful `driving` query, a `foot` query with the same points returns the
stored `driving` result (distance 12 km) without a network request, although
a direct `foot` call would have returned a different result (3 km). -/
theorem route_cache_key_ignores_profile :
    (get_route engineByProfile (get_route engineByProfile [] ptsX "driving").cache
        ptsX "foot").result = .ok ⟨[(41, 29)], 12, 25⟩ ∧
    (get_route engineByProfile (get_route engineByProfile [] ptsX "driving").cache
        ptsX "foot").networkCalled = false ∧
    engineByProfile ptsX "foot" = .ok ⟨[(41, 29)], 3, 40⟩ ∧
    (⟨[(41, 29)], 12, 25⟩ : RouteData) ≠ ⟨[(41, 29)], 3, 40⟩ := by
  refine ⟨by rfl, by rfl, by rfl, by decide⟩

/-- C5 (amended): the route cache key is the rounded coordinates plus the
time bucket only; repeating a previously successful `get_route` with the
same point list — under any profile, since the key ignores it — returns the
stored result without a second network request and leaves the cache as is. -/
theorem route_cache_replay_no_network (engine engine2 : EngineFn)
    (cache : CacheMap) (pts : List Coord) (pr1 pr2 : String) (data : RouteData)
    (h : (get_route engine cache pts pr1).result = .ok data) :
    get_route engine2 (get_route engine cache pts pr1).cache pts pr2 =
      ⟨.ok data, (get_route engine cache pts pr1).cache, false⟩ := by
  unfold get_route at h ⊢
  cases hc : cacheGet cache pts none with
  | some d =>
    simp only [hc] at h ⊢
    cases h
    rfl
  | none =>
    simp only [hc] at h ⊢
    cases he : engine pts pr1 with
    | error e => simp [he] at h
    | ok d =>
      simp only [he] at h ⊢
      cases h
      simp [cacheGet_cacheSet_same]

/-- C5 (witness): concrete replay — the second call's engine errors on every
input, yet the call succeeds from the cache with no network request. -/
theorem route_cache_replay_no_network_witness :
    (get_route engineByProfile [] ptsX "driving").result = .ok ⟨[(41, 29)], 12, 25⟩ ∧
    get_route engineErr (get_route engineByProfile [] ptsX "driving").cache
        ptsX "driving" =
      ⟨.ok ⟨[(41, 29)], 12, 25⟩, (get_route engineByProfile [] ptsX "driving").cache,
        false⟩ :=
  ⟨rfl, route_cache_replay_no_network engineByProfile engineErr [] ptsX
    "driving" "driving" ⟨[(41, 29)], 12, 25⟩ rfl⟩

/-- C6 (counterexample).  With exactly ONE stop requested (fewer than two),
`optimize_cluster_route` does not return `None`: the zero-stop early return
does not fire, a `Route` is built (engine erroring, fallback zero stats) and
assigned to the cluster. -/
theorem single_stop_request_still_builds_route :
    (optimize_cluster_route hav0 engineErr [] cOneStop true).1 =
      some ⟨[(41, 29)], [], 0, 0, false⟩ ∧
    (optimize_cluster_route hav0 engineErr [] cOneStop true).2.1.route ≠ none ∧
    (requestedStops cOneStop true).length < 2 := by
  refine ⟨by decide, by decide, by decide⟩

/-- C6 (amended): only a ZERO-stop request is treated as "no route possible":
when the requested stop list is empty, `optimize_cluster_route` returns
`None`, raises nothing, and leaves the cluster (in particular its route) and
the cache untouched. -/
theorem optimize_route_none_on_empty_stops (hav : DistFn) (engine : EngineFn)
    (cache : CacheMap) (c : Cluster) (us : Bool)
    (h : requestedStops c us = []) :
    optimize_cluster_route hav engine cache c us = (none, c, cache) := by
  simp [optimize_cluster_route, h]

/-- C6 (witness): a cluster with no predetermined stops and no active
employees requests zero stops and gets `None` back, its route left unset. -/
theorem optimize_route_none_on_empty_stops_witness :
    requestedStops cBare false = [] ∧
    optimize_cluster_route hav0 engineErr [] cBare false = (none, cBare, []) :=
  ⟨rfl, optimize_route_none_on_empty_stops hav0 engineErr [] cBare false rfl⟩

/-- C7 (counterexample).  On the empty cluster list — where every cluster is
vacuously within capacity — `enforce_capacity_constraints` does not return
the list unchanged: `max(c.id for c in clusters)` raises `ValueError`
(embedded as `none`). -/
theorem capacity_enforcement_crashes_on_empty :
    enforce_capacity_constraints hav0 km1 [] 5 = none := rfl

/-- C7 (amended): on every NON-EMPTY cluster list whose clusters are all
within capacity, `enforce_capacity_constraints` returns exactly the input
list — same clusters, same order, nothing modified — so running the pass
twice equals running it once. -/
theorem capacity_enforcement_identity_on_valid (hav : DistFn) (km : KMeansFn)
    (cs : List Cluster) (cap : Nat) (hne : cs ≠ [])
    (hval : ∀ c ∈ cs, c.activeCount ≤ cap) :
    enforce_capacity_constraints hav km cs cap = some cs := by
  unfold enforce_capacity_constraints
  cases hm : (cs.map Cluster.id).max? with
  | none =>
    rw [List.max?_eq_none_iff] at hm
    exact absurd (List.map_eq_nil_iff.mp hm) hne
  | some m => exact enforceGo_identity hav km cap cs (m + 1) hval

/-- C7 (witness): a singleton valid list passes through unchanged. -/
theorem capacity_enforcement_identity_on_valid_witness :
    ([cSmall] ≠ ([] : List Cluster)) ∧ (∀ c ∈ [cSmall], c.activeCount ≤ 5) ∧
    enforce_capacity_constraints hav0 km1 [cSmall] 5 = some [cSmall] :=
  ⟨by decide, by decide,
    capacity_enforcement_identity_on_valid hav0 km1 [cSmall] 5 (by decide)
      (by decide)⟩
